import Mathlib

/-!
Verification of the core event-collection engine of the nostr repository:
the total order on query events, the capped ordered event set, the Events
collection with its merge/taint semantics, the seen tracker of the memory
backend, and the backend filter translation.

Pure Rust functions are embedded as Lean functions over Nat, List and
String; machine integers are Nat with explicit reduction modulo 2 ^ 64
where a cast matters.  Byte arrays are lists of Nat compared
lexicographically, exactly as Rust compares byte slices.
-/

namespace Nostr

/-- Three-way comparison on Nat, mirroring Ord::cmp for unsigned integers. -/
def ncmp (a b : Nat) : Ordering :=
  if a < b then .lt else if b < a then .gt else .eq

/-- Lexicographic three-way comparison of byte strings, as Rust compares
two byte slices: element-wise, with the shorter slice ordered first on a
common-prefix tie. -/
def bcmp : List Nat → List Nat → Ordering
  | [], [] => .eq
  | [], _ :: _ => .lt
  | _ :: _, [] => .gt
  | a :: as, b :: bs =>
    match ncmp a b with
    | .eq => bcmp as bs
    | o => o

/-- An event record, embedding the Event type of the nostr crate as the
core consumes it: 32-byte id and pubkey as byte lists, u64 created_at as
Nat, u16 kind as Nat, tags, content and signature.  Only created_at and id
take part in the total order. -/
structure Event where
  id : List Nat
  pubkey : List Nat
  created_at : Nat
  kind : Nat
  tags : List (List String)
  content : String
  sig : List Nat
deriving DecidableEq, Repr

/-- The total order on events, embedding Ord::cmp of QueryEvent in
collections/events.rs (lookup id EVENT_ORD_IMPL): created_at compared in
reverse (descending, newer first), ties broken by ascending byte order of
the id. -/
def ecmp (a b : Event) : Ordering :=
  if a.created_at ≠ b.created_at then (ncmp a.created_at b.created_at).swap
  else bcmp a.id b.id

/-- Strictly ascending under the event order; the shape of the element
sequence of a BTreeSet keyed by the EVENT_ORD_IMPL order. -/
def SortedE (l : List Event) : Prop := l.Pairwise (fun a b => ecmp a b = .lt)

/-- Membership up to order equality: how a tree set keyed by Ord decides
whether a value is already present. -/
def memE (v : Event) (l : List Event) : Bool := l.any (fun x => ecmp v x == .eq)

/-- Ordered insertion into the ascending element sequence: the new
element lands before the first strictly larger resident; an order-equal
resident is kept and the insertion is dropped. -/
def sortedInsert (v : Event) : List Event → List Event
  | [] => [v]
  | x :: xs =>
    match ecmp v x with
    | .lt => v :: x :: xs
    | .eq => x :: xs
    | .gt => x :: sortedInsert v xs

/-- Over-capacity eviction policy.  Modelled from the spec: the capped set
container (tree module) is not among the provided sources; First evicts
the least element under the order, Last the greatest. -/
inductive OverCapacityPolicy where
  | first
  | last
deriving DecidableEq, Repr

/-- Capacity of the capped set.  Modelled from the spec: either Unbounded
or Bounded with a max and an over-capacity policy. -/
inductive Capacity where
  | unbounded
  | bounded (max : Nat) (policy : OverCapacityPolicy)
deriving DecidableEq, Repr

/-- Result of a capped-set insertion. -/
structure InsertResult where
  inserted : Bool
  evicted : Option Event
deriving DecidableEq, Repr

/-- Modelled from the spec: insert of the ordered capped set (the tree
module is not among the provided sources), acting on the ascending element
sequence of the underlying tree set.  An order-equal resident rejects the
candidate; below the max the candidate is inserted; at the max, policy
Last compares the candidate with the greatest element G and either evicts
G (candidate strictly smaller under the order) or rejects the candidate;
policy First is symmetric with the least element; Unbounded always
inserts. -/
def ocsInsert (cap : Capacity) (l : List Event) (v : Event) :
    List Event × InsertResult :=
  if memE v l then (l, ⟨false, none⟩)
  else
    match cap with
    | .unbounded => (sortedInsert v l, ⟨true, none⟩)
    | .bounded max policy =>
      if l.length < max then (sortedInsert v l, ⟨true, none⟩)
      else
        match policy with
        | .last =>
          match l.getLast? with
          | none => (l, ⟨false, none⟩)
          | some G =>
            if ecmp v G = .lt then (sortedInsert v l.dropLast, ⟨true, some G⟩)
            else (l, ⟨false, none⟩)
        | .first =>
          match l.head? with
          | none => (l, ⟨false, none⟩)
          | some F =>
            if ecmp v F = .gt then (sortedInsert v (l.drop 1), ⟨true, some F⟩)
            else (l, ⟨false, none⟩)

/-- The ordered capped set: ascending element sequence plus capacity.
Modelled from the spec. -/
structure BTreeCappedSet where
  elems : List Event
  cap : Capacity
deriving DecidableEq, Repr

def BTreeCappedSet.unbounded : BTreeCappedSet := ⟨[], .unbounded⟩

def BTreeCappedSet.bounded_with_policy (max : Nat) (policy : OverCapacityPolicy) :
    BTreeCappedSet :=
  ⟨[], .bounded max policy⟩

def BTreeCappedSet.insert (s : BTreeCappedSet) (v : Event) :
    BTreeCappedSet × InsertResult :=
  (⟨(ocsInsert s.cap s.elems v).1, s.cap⟩, (ocsInsert s.cap s.elems v).2)

/-- Insert every element of the list, in order (extend). -/
def BTreeCappedSet.extend (s : BTreeCappedSet) (vs : List Event) : BTreeCappedSet :=
  ⟨vs.foldl (fun l v => (ocsInsert s.cap l v).1) s.elems, s.cap⟩

/-- Modelled from the spec: on a shrink, drop elements from the policy end
until the length fits. -/
def BTreeCappedSet.change_capacity (s : BTreeCappedSet) (c : Capacity) : BTreeCappedSet :=
  match c with
  | .unbounded => ⟨s.elems, c⟩
  | .bounded max policy =>
    match policy with
    | .last => ⟨s.elems.take max, c⟩
    | .first => ⟨s.elems.drop (s.elems.length - max), c⟩

/-- Capacities the Events collection actually constructs: unbounded, or
bounded with the Last policy (events.rs fixes POLICY to Last and merge
only ever relaxes to Unbounded). -/
def CapLast : Capacity → Prop
  | .bounded _ .first => False
  | _ => True

/-- A candidate is settled at a state: inserting it changes nothing,
either because an order-equal element is present or because the set is
full and every greatest element is strictly below the candidate. -/
def Handled (cap : Capacity) (l : List Event) (b : Event) : Prop :=
  memE b l = true ∨
    (∃ m, cap = .bounded m .last ∧ ¬ l.length < m ∧
      ∀ G, l.getLast? = some G → ecmp b G = .gt)

/-- Query event view of events.rs: an owned event or a borrowed view over
a backend-resident event; accessors expose the same shape for both, so
the borrowed payload is embedded by its field content. -/
inductive QueryEvent where
  | owned (e : Event)
  | borrowed (e : Event)
deriving DecidableEq, Repr

def QueryEvent.id : QueryEvent → List Nat
  | .owned e => e.id
  | .borrowed e => e.id

def QueryEvent.created_at : QueryEvent → Nat
  | .owned e => e.created_at
  | .borrowed e => e.created_at

def QueryEvent.into_owned : QueryEvent → QueryEvent
  | .owned e => .owned e
  | .borrowed e => .owned e

def QueryEvent.into_event : QueryEvent → Event
  | .owned e => e
  | .borrowed e => e

/-- PartialEq for QueryEvent in events.rs: identifiers only. -/
def qeq (a b : QueryEvent) : Bool := a.id == b.id

/-- Ord::cmp for QueryEvent in events.rs (lookup id EVENT_ORD_IMPL). -/
def qcmp (a b : QueryEvent) : Ordering :=
  if a.created_at ≠ b.created_at then (ncmp a.created_at b.created_at).swap
  else bcmp a.id b.id

/-- The order as the spec words it on raw keys: created_at descending
first, ties broken by ascending byte-lexicographic id. -/
def specLt (ca1 : Nat) (id1 : List Nat) (ca2 : Nat) (id2 : List Nat) : Prop :=
  ca2 < ca1 ∨ (ca1 = ca2 ∧ bcmp id1 id2 = .lt)

/-- The domain filter as the core consumes it: optional id, author and
kind sets, single-letter tag constraints, time window and limit.  Sets
are embedded as lists; kind values live in the u16 domain. -/
structure Filter where
  ids : Option (List (List Nat))
  authors : Option (List (List Nat))
  kinds : Option (List Nat)
  generic_tags : List (Char × List String)
  since : Option Nat
  until_ts : Option Nat
  limit : Option Nat
deriving DecidableEq, Repr

def Filter.empty : Filter := ⟨none, none, none, [], none, none, none⟩

/-- Modelled from the spec: one mixing step of the order-sensitive 64-bit
fingerprint of a filter list (the std DefaultHasher is not part of the
repository; the engine relies only on stability and order sensitivity). -/
def hashStep (h x : Nat) : Nat := (h * 131 + x + 7) % (2 ^ 64)

def hashNats (h : Nat) (xs : List Nat) : Nat :=
  xs.foldl hashStep (hashStep h xs.length)

def hashOpt (h : Nat) : Option Nat → Nat
  | none => hashStep h 0
  | some n => hashStep (hashStep h 1) n

def hashOptNats (h : Nat) : Option (List Nat) → Nat
  | none => hashStep h 0
  | some xs => hashNats (hashStep h 1) xs

def hashOptList (h : Nat) : Option (List (List Nat)) → Nat
  | none => hashStep h 0
  | some ls => ls.foldl hashNats (hashStep h ls.length)

def hashString (h : Nat) (s : String) : Nat :=
  hashNats h (s.toList.map Char.toNat)

def hashTag (h : Nat) (t : Char × List String) : Nat :=
  t.2.foldl hashString (hashStep h t.1.toNat)

def filterHash (h : Nat) (f : Filter) : Nat :=
  hashOpt
    (hashOpt
      ((f.generic_tags.foldl hashTag
        (hashStep (hashOptNats (hashOptList (hashOptList h f.ids) f.authors) f.kinds)
          f.generic_tags.length)))
      f.since)
    (hashOpt 0 f.until_ts) + f.limit.getD 0

def filtersHash (fs : List Filter) : Nat :=
  (fs.foldl filterHash (hashStep 0 fs.length)) % (2 ^ 64)

/-- The Events collection of events.rs: capped ordered set, filter-list
fingerprint and the taint flag. -/
structure Events where
  set : BTreeCappedSet
  hash : Nat
  prev_not_match : Bool
deriving DecidableEq, Repr

/-- The fixed over-capacity policy of events.rs. -/
def POLICY : OverCapacityPolicy := .last

/-- The limit selection of Events::new: the limit is used iff the filter
list has exactly one element and that element carries a limit. -/
def filtersLimit (filters : List Filter) : Option Nat :=
  match filters with
  | [f] => f.limit
  | _ => none

def Events.new (filters : List Filter) : Events :=
  { set :=
      match filtersLimit filters with
      | some l => BTreeCappedSet.bounded_with_policy l POLICY
      | none => BTreeCappedSet.unbounded
  , hash := filtersHash filters
  , prev_not_match := false }

def Events.len (E : Events) : Nat := E.set.elems.length

def Events.contains (E : Events) (e : Event) : Bool := memE e E.set.elems

def Events.insert (E : Events) (e : Event) : Events × Bool :=
  ({ E with set := (E.set.insert e).1 }, (E.set.insert e).2.inserted)

def Events.extend (E : Events) (vs : List Event) : Events :=
  { E with set := E.set.extend vs }

def Events.merge (a b : Events) : Events :=
  let a2 :=
    if a.hash ≠ b.hash ∨ a.prev_not_match = true ∨ b.prev_not_match = true then
      ({ set := a.set.change_capacity .unbounded, hash := 0,
         prev_not_match := true } : Events)
    else a
  { a2 with set := a2.set.extend b.set.elems }

def Events.first (E : Events) : Option Event := E.set.elems.head?

def Events.last (E : Events) : Option Event := E.set.elems.getLast?

def Events.to_vec (E : Events) : List Event := E.set.elems

/-- Collecting a query-event stream into Events (the FromIterator impl in
events.rs): every view is lifted to an owned event, the set is collected
without a bound, the hash is zero and the collection starts tainted. -/
def Events.from_query_events (qs : List QueryEvent) : Events :=
  { set := ⟨qs.foldl (fun l q => (ocsInsert .unbounded l q.into_event).1) [], .unbounded⟩
  , hash := 0
  , prev_not_match := true }

/-- Events values constructible through the public operations of
events.rs. -/
inductive EventsReachable : Events → Prop where
  | new (filters : List Filter) : EventsReachable (Events.new filters)
  | insert {E : Events} (e : Event) :
      EventsReachable E → EventsReachable (E.insert e).1
  | extend {E : Events} (vs : List Event) :
      EventsReachable E → EventsReachable (E.extend vs)
  | merge {A B : Events} :
      EventsReachable A → EventsReachable B → EventsReachable (A.merge B)
  | from_query (qs : List QueryEvent) :
      EventsReachable (Events.from_query_events qs)

/-- Well-formedness every reachable Events value enjoys: the element
sequence is strictly ascending under the order and the capacity never
carries the First policy. -/
def EventsWF (E : Events) : Prop := SortedE E.set.elems ∧ CapLast E.set.cap

/-- Seen tracker of memory.rs: id-to-relay-set map (association list with
unique keys), optional capacity, and the insertion-order queue with its
front at the head. -/
structure SeenTracker where
  ids : List (List Nat × List String)
  capacity : Option Nat
  queue : List (List Nat)
deriving DecidableEq, Repr

def SeenTracker.new (capacity : Option Nat) : SeenTracker := ⟨[], capacity, []⟩

def SeenTracker.containsKey (t : SeenTracker) (id : List Nat) : Bool :=
  t.ids.any (fun p => p.1 == id)

def SeenTracker.get (t : SeenTracker) (id : List Nat) : Option (List String) :=
  (t.ids.find? (fun p => p.1 == id)).map Prod.snd

/-- check_capacity of memory.rs: when a capacity is configured and the
queue has reached it, pop the back of the queue and remove that id from
the map; popping an empty queue removes nothing. -/
def SeenTracker.check_capacity (t : SeenTracker) : SeenTracker :=
  match t.capacity with
  | some c =>
    if c ≤ t.queue.length then
      match t.queue.getLast? with
      | some victim =>
        { t with queue := t.queue.dropLast,
                 ids := t.ids.filter (fun p => ! (p.1 == victim)) }
      | none => t
    else t
  | none => t

/-- Hash-set style accumulation of an optional relay url. -/
def addUrl (urls : List String) : Option String → List String
  | none => urls
  | some u => if urls.contains u then urls else urls ++ [u]

/-- seen of memory.rs: a known id only accumulates the url into its set; a
new id runs the capacity check, then is inserted into the map and pushed
to the front of the queue. -/
def SeenTracker.seen (t : SeenTracker) (id : List Nat) (url : Option String) :
    SeenTracker :=
  if t.ids.any (fun p => p.1 == id) then
    { t with ids := t.ids.map (fun p => if p.1 == id then (p.1, addUrl p.2 url) else p) }
  else
    let t2 := t.check_capacity
    { t2 with ids := (id, addUrl [] url) :: t2.ids, queue := id :: t2.queue }

def SeenTracker.clear (t : SeenTracker) : SeenTracker :=
  { t with ids := [], queue := [] }

/-- Modelled from the spec: the rejection reasons of SaveEventStatus (the
status enums live in the database crate root, not among the provided
sources; memory.rs uses Other). -/
inductive RejectedReason where
  | deleted
  | replaced
  | other
deriving DecidableEq, Repr

inductive SaveEventStatus where
  | success
  | rejected (reason : RejectedReason)
deriving DecidableEq, Repr

inductive DatabaseEventStatus where
  | saved
  | deleted
  | notExistent
deriving DecidableEq, Repr

/-- Modelled from the spec: the in-memory helper indexing events (its
source file is not among the provided sources).  It keeps the id-indexed
event store, the register of deleted ids and the replaceable-coordinate
deletion register. -/
structure DatabaseHelper where
  events : List Event
  deleted_ids : List (List Nat)
  coordinate_deletions : List ((Nat × List Nat × String) × Nat)
deriving DecidableEq, Repr

def DatabaseHelper.empty : DatabaseHelper := ⟨[], [], []⟩

/-- The d tag value of an event (first value of its first tag named d),
identifying the replaceable slot. -/
def dtag (e : Event) : String :=
  match e.tags.find? (fun t => t.head? == some "d") with
  | some t => ((t.drop 1).head?).getD ""
  | none => ""

def coordOf (e : Event) : Nat × List Nat × String := (e.kind, e.pubkey, dtag e)

/-- Replaceable kinds per the protocol: 0, 3, the replaceable range and
the addressable range. -/
def isReplaceableKind (k : Nat) : Bool :=
  k == 0 || k == 3 || (10000 ≤ k && k < 20000) || (30000 ≤ k && k < 40000)

def insertIdOnce (id : List Nat) (ids : List (List Nat)) : List (List Nat) :=
  if ids.contains id then ids else id :: ids

/-- Modelled from the spec: index_event checks the coordinate-deletion
register against the candidate timestamp, then the deleted-id register,
then replaceable supersession (keeping only the newest event per
coordinate), marking a rejected or superseded id as deleted so that later
status checks observe it, and finally stores the event. -/
def DatabaseHelper.index_event (h : DatabaseHelper) (e : Event) :
    DatabaseHelper × SaveEventStatus :=
  if h.coordinate_deletions.any (fun p => p.1 == coordOf e && e.created_at ≤ p.2) then
    ({ h with deleted_ids := insertIdOnce e.id h.deleted_ids }, .rejected .deleted)
  else if h.deleted_ids.contains e.id then
    (h, .rejected .deleted)
  else if isReplaceableKind e.kind &&
      h.events.any (fun x => coordOf x == coordOf e && e.created_at < x.created_at) then
    ({ h with deleted_ids := insertIdOnce e.id h.deleted_ids }, .rejected .replaced)
  else
    ({ h with
        events := e :: h.events.filter
          (fun x => !(x.id == e.id) &&
            !(isReplaceableKind e.kind && coordOf x == coordOf e))
      , deleted_ids :=
          (h.events.filter
            (fun x => isReplaceableKind e.kind && coordOf x == coordOf e &&
              !(x.id == e.id))).foldl
            (fun acc x => insertIdOnce x.id acc) h.deleted_ids },
     .success)

def DatabaseHelper.has_event (h : DatabaseHelper) (id : List Nat) : Bool :=
  h.events.any (fun x => x.id == id)

def DatabaseHelper.has_event_id_been_deleted (h : DatabaseHelper) (id : List Nat) : Bool :=
  h.deleted_ids.contains id

/-- Options of the memory backend: whether events are persisted (default
false) and the bound shared by the event store and the seen tracker
(default 35000). -/
structure MemoryDatabaseOptions where
  events : Bool
  max_events : Option Nat
deriving DecidableEq, Repr

def MemoryDatabaseOptions.default : MemoryDatabaseOptions := ⟨false, some 35000⟩

structure MemoryDatabase where
  opts : MemoryDatabaseOptions
  seen_event_ids : SeenTracker
  helper : DatabaseHelper
deriving DecidableEq, Repr

def MemoryDatabase.with_opts (o : MemoryDatabaseOptions) : MemoryDatabase :=
  ⟨o, SeenTracker.new o.max_events, DatabaseHelper.empty⟩

def MemoryDatabase.new : MemoryDatabase := .with_opts .default

/-- save_event of memory.rs: with events enabled the helper indexes the
event; otherwise the id is only marked as seen (with no relay url) and
the status is Rejected(Other). -/
def MemoryDatabase.save_event (d : MemoryDatabase) (e : Event) :
    MemoryDatabase × SaveEventStatus :=
  if d.opts.events then
    ({ d with helper := (d.helper.index_event e).1 }, (d.helper.index_event e).2)
  else
    ({ d with seen_event_ids := d.seen_event_ids.seen e.id none }, .rejected .other)

/-- check_id of memory.rs. -/
def MemoryDatabase.check_id (d : MemoryDatabase) (id : List Nat) : DatabaseEventStatus :=
  if d.opts.events then
    if d.helper.has_event_id_been_deleted id then .deleted
    else if d.helper.has_event id then .saved
    else .notExistent
  else
    if d.seen_event_ids.containsKey id then .saved else .notExistent

def MemoryDatabase.event_id_seen (d : MemoryDatabase) (id : List Nat) (url : String) :
    MemoryDatabase :=
  { d with seen_event_ids := d.seen_event_ids.seen id (some url) }

def MemoryDatabase.event_seen_on_relays (d : MemoryDatabase) (id : List Nat) :
    Option (List String) :=
  d.seen_event_ids.get id

/-- Outcomes of begin_txn on the memory backend as observable by a
caller: a usable transaction handle, an explicit NotSupported error, or a
panic.  The body of MemoryDatabase::begin_txn in memory.rs is the
placeholder todo macro, whose only runtime behaviour is to panic. -/
inductive TxnOutcome where
  | handle
  | notSupported
  | panics
deriving DecidableEq, Repr

def MemoryDatabase.begin_txn (_ : MemoryDatabase) : TxnOutcome := .panics

/-- The backend filter dialect built by the translator in the ndb backend:
one optional constraint per attribute; kind values live in the u64
domain. -/
structure NdbFilter where
  ids : Option (List (List Nat))
  authors : Option (List (List Nat))
  kinds : Option (List Nat)
  tags : List (Char × List String)
  since : Option Nat
  until_ts : Option Nat
  limit : Option Nat
deriving DecidableEq, Repr

/-- ndb_filter_conversion of the ndb backend: emit a constraint per
present non-empty attribute (absent or empty id, author and kind sets
emit nothing); kinds are cast from the u16 domain into the u64 domain
(reduction modulo 2 ^ 64, which never changes a u16 value); each entry of
generic_tags becomes one tag constraint keyed by its single letter;
since, until and limit pass through. -/
def ndb_filter_conversion (f : Filter) : NdbFilter :=
  { ids :=
      match f.ids with
      | some ids => if ids.isEmpty then none else some ids
      | none => none
  , authors :=
      match f.authors with
      | some as => if as.isEmpty then none else some as
      | none => none
  , kinds :=
      match f.kinds with
      | some ks => if ks.isEmpty then none else some (ks.map (fun k => k % (2 ^ 64)))
      | none => none
  , tags := if f.generic_tags.isEmpty then [] else f.generic_tags
  , since := f.since
  , until_ts := f.until_ts
  , limit := f.limit }

/-- Concrete events used by the end-to-end scenarios. -/
def mkEvent (ca idb : Nat) : Event :=
  { id := [idb], pubkey := [1], created_at := ca, kind := 1,
    tags := [], content := "", sig := [] }

def e100 : Event := mkEvent 100 1

def e200 : Event := mkEvent 200 2

def e50 : Event := mkEvent 50 3

def e300 : Event := mkEvent 300 4

/-- The scenario filter: kind 1, limit 2. -/
def fK1L2 : Filter :=
  { ids := none, authors := none, kinds := some [1], generic_tags := [],
    since := none, until_ts := none, limit := some 2 }

/-- A filter exercising every attribute of the backend translation. -/
def fW : Filter :=
  { ids := some [[5]], authors := some [[7]], kinds := some [1],
    generic_tags := [('e', ["x"])], since := some 10, until_ts := some 20,
    limit := some 3 }

/-- Map-keys-equal-queue plus a duplicate-free queue: the shape every
reachable tracker state has. -/
def TrackerWF (t : SeenTracker) : Prop :=
  (∀ x, t.containsKey x = true ↔ x ∈ t.queue) ∧ t.queue.Nodup

/-- Operations a caller can run against the seen tracker; get and
contains do not mutate and need no entry here. -/
inductive TrackerOp where
  | seenOp (id : List Nat) (url : Option String)
  | clearOp
deriving DecidableEq, Repr

def TrackerOp.apply (t : SeenTracker) : TrackerOp → SeenTracker
  | .seenOp id url => t.seen id url
  | .clearOp => t.clear

/-- Invariant tying a tracker to the list of distinct ids processed so
far: the queue holds the newest min(N, done) ids, newest first, and the
map keys are exactly the queue members. -/
def TrackerInv (N : Nat) (t : SeenTracker) (done : List (List Nat)) : Prop :=
  t.capacity = some N ∧ t.queue = done.reverse.take N ∧
    (∀ x, t.containsKey x = true ↔ x ∈ t.queue)

/-- Operations that can touch the seen tracker of the memory backend. -/
inductive MDOp where
  | save (e : Event)
  | idSeen (id : List Nat) (url : String)
deriving DecidableEq, Repr

def MDOp.apply (d : MemoryDatabase) : MDOp → MemoryDatabase
  | .save e => (d.save_event e).1
  | .idSeen id url => d.event_id_seen id url

/-- Every relay set stored for the given id is empty. -/
def NoUrlFor (d : MemoryDatabase) (id : List Nat) : Prop :=
  ∀ p ∈ d.seen_event_ids.ids, p.1 = id → p.2 = []

theorem ncmp_lt_iff {a b : Nat} : ncmp a b = .lt ↔ a < b := by
  unfold ncmp
  by_cases h1 : a < b
  · simp [h1]
  · by_cases h2 : b < a <;> simp [h1, h2]

theorem ncmp_gt_iff {a b : Nat} : ncmp a b = .gt ↔ b < a := by
  unfold ncmp
  by_cases h1 : a < b
  · simp [h1]; omega
  · by_cases h2 : b < a <;> simp [h1, h2]

theorem ncmp_eq_iff {a b : Nat} : ncmp a b = .eq ↔ a = b := by
  unfold ncmp
  by_cases h1 : a < b
  · simp [h1]; omega
  · by_cases h2 : b < a <;> simp [h1, h2] <;> omega

theorem ncmp_swap (a b : Nat) : (ncmp a b).swap = ncmp b a := by
  unfold ncmp
  by_cases h1 : a < b <;> by_cases h2 : b < a <;>
    simp [h1, h2, Ordering.swap] <;> omega

theorem bcmp_eq_iff : ∀ {xs ys : List Nat}, bcmp xs ys = .eq ↔ xs = ys := by
  intro xs
  induction xs with
  | nil => intro ys; cases ys <;> simp [bcmp]
  | cons a as ih =>
    intro ys
    cases ys with
    | nil => simp [bcmp]
    | cons b bs =>
      simp only [bcmp]
      rcases ho : ncmp a b with _ | _ | _ <;> simp_all [ncmp_eq_iff, ncmp_lt_iff, ncmp_gt_iff]
      · intro h; omega
      · intro h; omega

theorem bcmp_refl (xs : List Nat) : bcmp xs xs = .eq := bcmp_eq_iff.mpr rfl

theorem bcmp_swap : ∀ (xs ys : List Nat), (bcmp xs ys).swap = bcmp ys xs := by
  intro xs
  induction xs with
  | nil => intro ys; cases ys <;> simp [bcmp, Ordering.swap]
  | cons a as ih =>
    intro ys
    cases ys with
    | nil => simp [bcmp, Ordering.swap]
    | cons b bs =>
      have hba : ncmp b a = (ncmp a b).swap := (ncmp_swap a b).symm
      simp only [bcmp, hba]
      rcases ho : ncmp a b with _ | _ | _
      · rfl
      · exact ih bs
      · rfl

theorem bcmp_trans :
    ∀ {xs ys zs : List Nat}, bcmp xs ys = .lt → bcmp ys zs = .lt → bcmp xs zs = .lt := by
  intro xs
  induction xs with
  | nil =>
    intro ys zs h1 h2
    cases ys with
    | nil => exact h2
    | cons b bs =>
      cases zs with
      | nil => simp [bcmp] at h2
      | cons c cs => simp [bcmp]
  | cons a as ih =>
    intro ys zs h1 h2
    cases ys with
    | nil => simp [bcmp] at h1
    | cons b bs =>
      cases zs with
      | nil => simp [bcmp] at h2
      | cons c cs =>
        simp only [bcmp] at h1 h2 ⊢
        rcases hab : ncmp a b with _ | _ | _ <;> rw [hab] at h1
        · rcases hbc : ncmp b c with _ | _ | _ <;> rw [hbc] at h2
          · have hac : ncmp a c = .lt :=
              ncmp_lt_iff.mpr (lt_trans (ncmp_lt_iff.mp hab) (ncmp_lt_iff.mp hbc))
            rw [hac]
          · rw [← ncmp_eq_iff.mp hbc, hab]
          · simp at h2
        · rcases hbc : ncmp b c with _ | _ | _ <;> rw [hbc] at h2
          · rw [ncmp_eq_iff.mp hab, hbc]
          · have hac : ncmp a c = .eq :=
              ncmp_eq_iff.mpr ((ncmp_eq_iff.mp hab).trans (ncmp_eq_iff.mp hbc))
            rw [hac]; exact ih h1 h2
          · simp at h2
        · simp at h1

theorem ecmp_eq_iff {a b : Event} :
    ecmp a b = .eq ↔ a.created_at = b.created_at ∧ a.id = b.id := by
  unfold ecmp
  by_cases h : a.created_at = b.created_at
  · simp [h, bcmp_eq_iff]
  · simp only [h, ne_eq, not_false_iff, if_true]
    constructor
    · intro hs
      rcases ho : ncmp a.created_at b.created_at with _ | _ | _ <;>
        rw [ho] at hs <;> simp [Ordering.swap] at hs
      exact absurd (ncmp_eq_iff.mp ho) h
    · rintro ⟨h1, _⟩; exact h1.elim

theorem ecmp_refl (a : Event) : ecmp a a = .eq := ecmp_eq_iff.mpr ⟨rfl, rfl⟩

theorem ecmp_swap (a b : Event) : (ecmp a b).swap = ecmp b a := by
  unfold ecmp
  by_cases h : a.created_at = b.created_at
  · simp [h, bcmp_swap]
  · have h' : ¬ b.created_at = a.created_at := fun hx => h hx.symm
    simp only [h, h', ne_eq, not_false_iff, if_true]
    rw [← ncmp_swap a.created_at b.created_at]

theorem ecmp_lt_iff {a b : Event} :
    ecmp a b = .lt ↔
      b.created_at < a.created_at ∨
        (a.created_at = b.created_at ∧ bcmp a.id b.id = .lt) := by
  unfold ecmp
  by_cases h : a.created_at = b.created_at
  · simp [h]
  · simp only [h, ne_eq, not_false_iff, if_true]
    constructor
    · intro hs
      rcases ho : ncmp a.created_at b.created_at with _ | _ | _ <;>
        rw [ho] at hs <;> simp [Ordering.swap] at hs
      exact Or.inl (ncmp_gt_iff.mp ho)
    · rintro (h1 | ⟨h1, _⟩)
      · rw [ncmp_gt_iff.mpr h1]; rfl
      · exact h1.elim

theorem ecmp_gt_iff {a b : Event} :
    ecmp a b = .gt ↔ ecmp b a = .lt := by
  rw [← ecmp_swap b a]
  rcases ecmp b a with _ | _ | _ <;> simp [Ordering.swap]

/-- Comparisons see only the order key (created_at, id) of the left
argument. -/
theorem ecmp_congr_left {a b : Event} (hca : a.created_at = b.created_at)
    (hid : a.id = b.id) (c : Event) : ecmp a c = ecmp b c := by
  unfold ecmp; rw [hca, hid]

theorem ecmp_trans {a b c : Event} (h1 : ecmp a b = .lt) (h2 : ecmp b c = .lt) :
    ecmp a c = .lt := by
  rw [ecmp_lt_iff] at h1 h2 ⊢
  rcases h1 with h1 | ⟨h1, h1b⟩ <;> rcases h2 with h2 | ⟨h2, h2b⟩
  · exact Or.inl (lt_trans h2 h1)
  · exact Or.inl (h2 ▸ h1)
  · exact Or.inl (h1 ▸ h2)
  · exact Or.inr ⟨h1.trans h2, bcmp_trans h1b h2b⟩

/-- Transitivity through an order-equal middle element. -/
theorem ecmp_lt_of_lt_of_eq {a b c : Event} (h1 : ecmp a b = .lt)
    (h2 : ecmp b c = .eq) : ecmp a c = .lt := by
  rcases ecmp_eq_iff.mp h2 with ⟨hca, hid⟩
  calc ecmp a c = (ecmp c a).swap := by rw [ecmp_swap]
    _ = (ecmp b a).swap := by rw [ecmp_congr_left hca.symm hid.symm]
    _ = ecmp a b := by rw [ecmp_swap]
    _ = .lt := h1

theorem ecmp_lt_of_eq_of_lt {a b c : Event} (h1 : ecmp a b = .eq)
    (h2 : ecmp b c = .lt) : ecmp a c = .lt := by
  rcases ecmp_eq_iff.mp h1 with ⟨hca, hid⟩
  rw [ecmp_congr_left hca hid]; exact h2

theorem ordBeq_iff {o p : Ordering} : (o == p) = true ↔ o = p := by
  cases o <;> cases p <;> decide

theorem memE_iff {v : Event} {l : List Event} :
    memE v l = true ↔ ∃ x ∈ l, ecmp v x = .eq := by
  simp [memE, ordBeq_iff]

theorem memE_eq_false_iff {v : Event} {l : List Event} :
    memE v l = false ↔ ∀ x ∈ l, ¬ ecmp v x = .eq := by
  simp [memE, ordBeq_iff]

theorem mem_sortedInsert {y v : Event} :
    ∀ {l : List Event}, y ∈ sortedInsert v l → y = v ∨ y ∈ l := by
  intro l
  induction l with
  | nil => simp [sortedInsert]
  | cons x xs ih =>
    simp only [sortedInsert]
    rcases ho : ecmp v x with _ | _ | _
    · intro hy
      rcases List.mem_cons.mp hy with rfl | hy
      · exact Or.inl rfl
      · exact Or.inr hy
    · exact fun hy => Or.inr hy
    · intro hy
      rcases List.mem_cons.mp hy with rfl | hy
      · exact Or.inr (List.mem_cons_self _ _)
      · rcases ih hy with rfl | hy
        · exact Or.inl rfl
        · exact Or.inr (List.mem_cons_of_mem _ hy)

theorem mem_sortedInsert_of_mem {y v : Event} :
    ∀ {l : List Event}, y ∈ l → y ∈ sortedInsert v l := by
  intro l
  induction l with
  | nil => simp
  | cons x xs ih =>
    intro hy
    simp only [sortedInsert]
    rcases ho : ecmp v x with _ | _ | _
    · exact List.mem_cons_of_mem _ hy
    · exact hy
    · rcases List.mem_cons.mp hy with rfl | hy
      · exact List.mem_cons_self _ _
      · exact List.mem_cons_of_mem _ (ih hy)

theorem memE_sortedInsert_self (v : Event) :
    ∀ (l : List Event), memE v (sortedInsert v l) = true := by
  intro l
  induction l with
  | nil => simp [sortedInsert, memE, ecmp_refl, ordBeq_iff]
  | cons x xs ih =>
    simp only [sortedInsert]
    rcases ho : ecmp v x with _ | _ | _
    · simp [memE, ecmp_refl, ordBeq_iff]
    · simp [memE, ho, ordBeq_iff]
    · rcases memE_iff.mp ih with ⟨z, hz, hvz⟩
      exact memE_iff.mpr ⟨z, List.mem_cons_of_mem _ hz, hvz⟩

theorem memE_sortedInsert_of_memE {w v : Event} {l : List Event}
    (h : memE w l = true) : memE w (sortedInsert v l) = true := by
  rcases memE_iff.mp h with ⟨x, hx, hwx⟩
  exact memE_iff.mpr ⟨x, mem_sortedInsert_of_mem hx, hwx⟩

theorem length_sortedInsert_le (v : Event) :
    ∀ (l : List Event), (sortedInsert v l).length ≤ l.length + 1 := by
  intro l
  induction l with
  | nil => simp [sortedInsert]
  | cons x xs ih =>
    simp only [sortedInsert]
    rcases ho : ecmp v x with _ | _ | _ <;> simp only [List.length_cons] <;> omega

theorem length_sortedInsert_of_not_memE {v : Event} :
    ∀ {l : List Event}, memE v l = false → (sortedInsert v l).length = l.length + 1 := by
  intro l
  induction l with
  | nil => simp [sortedInsert]
  | cons x xs ih =>
    intro h
    rw [memE_eq_false_iff] at h
    simp only [sortedInsert]
    rcases ho : ecmp v x with _ | _ | _
    · simp
    · exact absurd ho (h x (List.mem_cons_self _ _))
    · have hxs : memE v xs = false :=
        memE_eq_false_iff.mpr fun z hz => h z (List.mem_cons_of_mem _ hz)
      simp only [List.length_cons, ih hxs]

theorem sortedInsert_of_memE {v : Event} :
    ∀ {l : List Event}, SortedE l → memE v l = true → sortedInsert v l = l := by
  intro l
  induction l with
  | nil => intro _ h; simp [memE] at h
  | cons x xs ih =>
    intro hs hm
    rcases List.pairwise_cons.mp hs with ⟨hx, hxs⟩
    rcases memE_iff.mp hm with ⟨z, hz, hvz⟩
    simp only [sortedInsert]
    rcases List.mem_cons.mp hz with rfl | hz
    · rw [hvz]
    · have hxz : ecmp x z = .lt := hx z hz
      have hxv : ecmp x v = .lt := by
        rcases ecmp_eq_iff.mp hvz with ⟨hca, hid⟩
        calc ecmp x v = (ecmp v x).swap := by rw [ecmp_swap]
          _ = (ecmp z x).swap := by rw [ecmp_congr_left hca hid]
          _ = ecmp x z := by rw [ecmp_swap]
          _ = .lt := hxz
      have hvx : ecmp v x = .gt := ecmp_gt_iff.mpr hxv
      rw [hvx]
      rw [ih hxs (memE_iff.mpr ⟨z, hz, hvz⟩)]

theorem sortedInsert_sorted {l : List Event} (h : SortedE l) (v : Event) :
    SortedE (sortedInsert v l) := by
  induction l with
  | nil => simp [sortedInsert, SortedE]
  | cons x xs ih =>
    rcases List.pairwise_cons.mp h with ⟨hx, hxs⟩
    simp only [sortedInsert]
    rcases ho : ecmp v x with _ | _ | _
    · refine List.pairwise_cons.mpr ⟨?_, h⟩
      intro y hy
      rcases List.mem_cons.mp hy with rfl | hy
      · exact ho
      · exact ecmp_trans ho (hx y hy)
    · exact h
    · refine List.pairwise_cons.mpr ⟨?_, ih hxs⟩
      intro y hy
      rcases mem_sortedInsert hy with rfl | hy
      · exact ecmp_gt_iff.mp ho
      · exact hx y hy

theorem SortedE_dropLast {l : List Event} (h : SortedE l) : SortedE l.dropLast :=
  h.sublist (List.dropLast_sublist l)

theorem SortedE_take {l : List Event} (h : SortedE l) (n : Nat) : SortedE (l.take n) :=
  h.sublist (List.take_sublist n l)

theorem SortedE_drop {l : List Event} (h : SortedE l) (n : Nat) : SortedE (l.drop n) :=
  h.sublist (List.drop_sublist n l)

theorem sorted_take_drop_rel {l : List Event} (h : SortedE l) (N : Nat) :
    ∀ a ∈ l.take N, ∀ b ∈ l.drop N, ecmp a b = .lt := by
  have h2 : List.Pairwise (fun a b => ecmp a b = .lt) (l.take N ++ l.drop N) := by
    rw [List.take_append_drop]; exact h
  exact (List.pairwise_append.mp h2).2.2

theorem eq_dropLast_append_getLast {α : Type} {l : List α} {G : α}
    (h : l.getLast? = some G) : l = l.dropLast ++ [G] := by
  cases l with
  | nil => simp at h
  | cons x xs =>
    have hne : x :: xs ≠ [] := by simp
    rw [List.getLast?_eq_getLast _ hne] at h
    have hG : (x :: xs).getLast hne = G := Option.some_inj.mp h
    rw [← hG]
    exact (List.dropLast_append_getLast hne).symm

theorem sortedInsert_append_right {v : Event} {r : List Event}
    (h : ∀ b ∈ r, ecmp v b = .lt) :
    ∀ (c : List Event), sortedInsert v (c ++ r) = sortedInsert v c ++ r := by
  intro c
  induction c with
  | nil =>
    cases r with
    | nil => rfl
    | cons b bs =>
      have hb : ecmp v b = .lt := h b (List.mem_cons_self _ _)
      simp only [List.nil_append, sortedInsert, hb]
      rfl
  | cons x t ih =>
    simp only [List.cons_append, sortedInsert]
    rcases ho : ecmp v x with _ | _ | _ <;> simp [ih]

theorem sortedInsert_append_left {v : Event} :
    ∀ (c r : List Event), (∀ a ∈ c, ecmp v a = .gt) →
      sortedInsert v (c ++ r) = c ++ sortedInsert v r := by
  intro c
  induction c with
  | nil => intro r _; rfl
  | cons x t ih =>
    intro r h
    have hx : ecmp v x = .gt := h x (List.mem_cons_self _ _)
    simp only [List.cons_append, sortedInsert, hx]
    rw [show t.append r = t ++ r from rfl, ih r (fun a ha => h a (List.mem_cons_of_mem _ ha))]

theorem ocsInsert_sorted {cap : Capacity} {l : List Event} {v : Event}
    (h : SortedE l) : SortedE (ocsInsert cap l v).1 := by
  unfold ocsInsert
  by_cases hm : memE v l <;> simp only [hm, if_true, if_false, Bool.false_eq_true]
  · exact h
  · cases cap with
    | unbounded => exact sortedInsert_sorted h v
    | bounded m p =>
      by_cases hl : l.length < m <;> simp only [hl, if_true, if_false]
      · exact sortedInsert_sorted h v
      · cases p with
        | last =>
          cases hG : l.getLast? with
          | none => exact h
          | some G =>
            by_cases hvG : ecmp v G = .lt <;> simp only [hvG, if_true, if_false]
            · exact sortedInsert_sorted (SortedE_dropLast h) v
            · exact h
        | first =>
          cases hF : l.head? with
          | none => exact h
          | some F =>
            by_cases hvF : ecmp v F = .gt <;> simp only [hvF, if_true, if_false]
            · exact sortedInsert_sorted (SortedE_drop h 1) v
            · exact h

theorem ocsInsert_of_memE {cap : Capacity} {l : List Event} {v : Event}
    (h : memE v l = true) : ocsInsert cap l v = (l, ⟨false, none⟩) := by
  unfold ocsInsert; rw [h]; simp

theorem ocsInsert_unbounded_ins {l : List Event} {v : Event}
    (h : memE v l = false) :
    ocsInsert .unbounded l v = (sortedInsert v l, ⟨true, none⟩) := by
  unfold ocsInsert; rw [h]; simp

theorem ocsInsert_bounded_lt {l : List Event} {v : Event} {m : Nat}
    {p : OverCapacityPolicy} (h : memE v l = false) (hl : l.length < m) :
    ocsInsert (.bounded m p) l v = (sortedInsert v l, ⟨true, none⟩) := by
  unfold ocsInsert; rw [h]; simp [hl]

theorem ocsInsert_last_evict {l : List Event} {v G : Event} {m : Nat}
    (h : memE v l = false) (hl : ¬ l.length < m) (hG : l.getLast? = some G)
    (hvG : ecmp v G = .lt) :
    ocsInsert (.bounded m .last) l v = (sortedInsert v l.dropLast, ⟨true, some G⟩) := by
  unfold ocsInsert; rw [h]; simp [hl, hG, hvG]

theorem ocsInsert_last_reject {l : List Event} {v G : Event} {m : Nat}
    (h : memE v l = false) (hl : ¬ l.length < m) (hG : l.getLast? = some G)
    (hvG : ¬ ecmp v G = .lt) :
    ocsInsert (.bounded m .last) l v = (l, ⟨false, none⟩) := by
  unfold ocsInsert; rw [h]; simp [hl, hG, hvG]

theorem ocsInsert_last_empty {l : List Event} {v : Event} {m : Nat}
    (h : memE v l = false) (hl : ¬ l.length < m) (hG : l.getLast? = none) :
    ocsInsert (.bounded m .last) l v = (l, ⟨false, none⟩) := by
  unfold ocsInsert; rw [h]; simp [hl, hG]

/-- Central step of the capacity-bound invariant: with bound N and policy
Last, a capped insertion into the N-element prefix of the sorted
accumulated set tracks the N-element prefix of the unbounded insertion. -/
theorem bounded_last_step {u : List Event} {N : Nat} (hs : SortedE u) (v : Event) :
    (ocsInsert (.bounded N .last) (u.take N) v).1 = (sortedInsert v u).take N := by
  by_cases hm : memE v (u.take N) = true
  · have hmu : memE v u = true := by
      rcases memE_iff.mp hm with ⟨x, hx, hvx⟩
      exact memE_iff.mpr ⟨x, List.take_subset N u hx, hvx⟩
    rw [ocsInsert_of_memE hm, sortedInsert_of_memE hs hmu]
  · have hm' : memE v (u.take N) = false := by
      revert hm; cases memE v (u.take N) <;> simp
    by_cases hlen : (u.take N).length < N
    · have hul : u.length < N := by
        have := List.length_take N u; omega
      have htu : u.take N = u := List.take_of_length_le (le_of_lt hul)
      rw [ocsInsert_bounded_lt hm' hlen]
      simp only [htu]
      rw [List.take_of_length_le]
      have := length_sortedInsert_le v u; omega
    · have hlN : (u.take N).length = N := by
        have := List.length_take N u; omega
      cases N with
      | zero =>
        have h0 : u.take 0 = ([] : List Event) := rfl
        rw [ocsInsert_last_empty hm' hlen (by rw [h0]; rfl)]
        simp [h0]
      | succ M =>
        have htkne : u.take (M + 1) ≠ [] := by
          intro hnil; rw [hnil] at hlN; simp at hlN
        obtain ⟨G, hG⟩ : ∃ G, (u.take (M + 1)).getLast? = some G := by
          cases hx : (u.take (M + 1)).getLast? with
          | none => exact absurd (List.getLast?_eq_none_iff.mp hx) htkne
          | some G => exact ⟨G, rfl⟩
        have htk : u.take (M + 1) = (u.take (M + 1)).dropLast ++ [G] :=
          eq_dropLast_append_getLast hG
        have hGtk : G ∈ u.take (M + 1) := by
          rw [htk]; exact List.mem_append.mpr (Or.inr (List.mem_singleton.mpr rfl))
        have hstk : SortedE (u.take (M + 1)) := SortedE_take hs _
        have hinitG : ∀ y ∈ (u.take (M + 1)).dropLast, ecmp y G = .lt := by
          intro y hy
          have hp : SortedE ((u.take (M + 1)).dropLast ++ [G]) := by rw [← htk]; exact hstk
          exact (List.pairwise_append.mp hp).2.2 y hy G (List.mem_singleton.mpr rfl)
        rcases hvG : ecmp v G with _ | _ | _
        · -- candidate strictly smaller than the greatest: evict G
          rw [ocsInsert_last_evict hm' hlen hG hvG]
          have hvdr : ∀ b ∈ u.drop (M + 1), ecmp v b = .lt := fun b hb =>
            ecmp_trans hvG (sorted_take_drop_rel hs (M + 1) G hGtk b hb)
          have h1 : sortedInsert v u = sortedInsert v (u.take (M + 1)) ++ u.drop (M + 1) := by
            conv_lhs => rw [← List.take_append_drop (M + 1) u]
            exact sortedInsert_append_right hvdr _
          have h2 : sortedInsert v (u.take (M + 1)) =
              sortedInsert v ((u.take (M + 1)).dropLast) ++ [G] := by
            conv_lhs => rw [htk]
            exact sortedInsert_append_right
              (fun b hb => by rw [List.mem_singleton.mp hb]; exact hvG) _
          have hminit : memE v ((u.take (M + 1)).dropLast) = false := by
            rw [memE_eq_false_iff] at hm' ⊢
            exact fun x hx => hm' x (List.dropLast_sublist _ |>.subset hx)
          have hlinit : (sortedInsert v ((u.take (M + 1)).dropLast)).length = M + 1 := by
            rw [length_sortedInsert_of_not_memE hminit, List.length_dropLast]
            omega
          rw [h1, h2, List.append_assoc, List.take_left' hlinit]
        · -- order-equal to the greatest: contradicts absence
          exact absurd (memE_iff.mpr ⟨G, hGtk, hvG⟩) (by rw [hm']; simp)
        · -- candidate greater than the greatest: reject
          rw [ocsInsert_last_reject hm' hlen hG (by rw [hvG]; simp)]
          have hvtk : ∀ a ∈ u.take (M + 1), ecmp v a = .gt := by
            intro a ha
            rw [htk] at ha
            rcases List.mem_append.mp ha with hinit | hGg
            · have h1 : ecmp a G = .lt := hinitG a hinit
              have h2 : ecmp G v = .lt := ecmp_gt_iff.mp hvG
              exact ecmp_gt_iff.mpr (ecmp_trans h1 h2)
            · rw [List.mem_singleton.mp hGg]; exact hvG
          have h1 : sortedInsert v u = u.take (M + 1) ++ sortedInsert v (u.drop (M + 1)) := by
            conv_lhs => rw [← List.take_append_drop (M + 1) u]
            exact sortedInsert_append_left _ _ hvtk
          rw [h1, List.take_left' hlN]

/-- Folding capped Last insertions from the N-prefix of a sorted history
tracks the N-prefix of the unbounded fold. -/
theorem bounded_last_fold {N : Nat} :
    ∀ (vs : List Event) (u : List Event), SortedE u →
      vs.foldl (fun l v => (ocsInsert (.bounded N .last) l v).1) (u.take N) =
        (vs.foldl (fun l v => sortedInsert v l) u).take N := by
  intro vs
  induction vs with
  | nil => intro u _; rfl
  | cons v vs ih =>
    intro u hs
    simp only [List.foldl_cons]
    rw [bounded_last_step hs v]
    exact ih _ (sortedInsert_sorted hs v)

theorem sortedFold_sorted :
    ∀ (vs : List Event) (u : List Event), SortedE u →
      SortedE (vs.foldl (fun l v => sortedInsert v l) u) := by
  intro vs
  induction vs with
  | nil => intro u hs; exact hs
  | cons v vs ih =>
    intro u hs
    simp only [List.foldl_cons]
    exact ih _ (sortedInsert_sorted hs v)

theorem mem_of_getLast?E {α : Type} {l : List α} {G : α} (h : l.getLast? = some G) :
    G ∈ l := by
  rw [eq_dropLast_append_getLast h]
  exact List.mem_append.mpr (Or.inr (List.mem_singleton.mpr rfl))

theorem memE_false_of_not_true {v : Event} {l : List Event}
    (h : ¬ memE v l = true) : memE v l = false := by
  revert h; cases memE v l <;> simp

theorem Handled.noop {cap : Capacity} {l : List Event} {b : Event}
    (h : Handled cap l b) : (ocsInsert cap l b).1 = l := by
  by_cases hm : memE b l = true
  · rw [ocsInsert_of_memE hm]
  · have hm' : memE b l = false := memE_false_of_not_true hm
    rcases h with hmem | ⟨m, hcap, hlen, hGf⟩
    · exact absurd hmem hm
    · subst hcap
      cases hGl : l.getLast? with
      | none => rw [ocsInsert_last_empty hm' hlen hGl]
      | some G =>
        rw [ocsInsert_last_reject hm' hlen hGl (by rw [hGf G hGl]; simp)]

theorem handled_after {cap : Capacity} {l : List Event} {b : Event}
    (hs : SortedE l) (hc : CapLast cap) :
    Handled cap (ocsInsert cap l b).1 b := by
  by_cases hm : memE b l = true
  · rw [ocsInsert_of_memE hm]; exact Or.inl hm
  · have hm' : memE b l = false := memE_false_of_not_true hm
    cases cap with
    | unbounded =>
      rw [ocsInsert_unbounded_ins hm']
      exact Or.inl (memE_sortedInsert_self b l)
    | bounded m p =>
      cases p with
      | first => exact hc.elim
      | last =>
        by_cases hl : l.length < m
        · rw [ocsInsert_bounded_lt hm' hl]
          exact Or.inl (memE_sortedInsert_self b l)
        · cases hGl : l.getLast? with
          | none =>
            rw [ocsInsert_last_empty hm' hl hGl]
            exact Or.inr ⟨m, rfl, hl, fun G hG => by rw [hGl] at hG; cases hG⟩
          | some G =>
            rcases hvG : ecmp b G with _ | _ | _
            · rw [ocsInsert_last_evict hm' hl hGl hvG]
              exact Or.inl (memE_sortedInsert_self b _)
            · exact absurd (memE_iff.mpr ⟨G, mem_of_getLast?E hGl, hvG⟩) hm
            · rw [ocsInsert_last_reject hm' hl hGl (by rw [hvG]; simp)]
              refine Or.inr ⟨m, rfl, hl, fun G2 hG2 => ?_⟩
              rw [hGl] at hG2
              rw [← Option.some_inj.mp hG2]
              exact hvG

theorem handled_mono {cap : Capacity} {l : List Event} {b v : Event}
    (hs : SortedE l) (hc : CapLast cap) (h : Handled cap l b) :
    Handled cap (ocsInsert cap l v).1 b := by
  by_cases hmv : memE v l = true
  · rw [ocsInsert_of_memE hmv]; exact h
  · have hmv' : memE v l = false := memE_false_of_not_true hmv
    cases cap with
    | unbounded =>
      rw [ocsInsert_unbounded_ins hmv']
      rcases h with hmem | ⟨m, hcap, _, _⟩
      · exact Or.inl (memE_sortedInsert_of_memE hmem)
      · cases hcap
    | bounded m p =>
      cases p with
      | first => exact hc.elim
      | last =>
        by_cases hl : l.length < m
        · rw [ocsInsert_bounded_lt hmv' hl]
          rcases h with hmem | ⟨m2, hcap2, hlen2, _⟩
          · exact Or.inl (memE_sortedInsert_of_memE hmem)
          · cases hcap2; exact absurd hl hlen2
        · cases hGl : l.getLast? with
          | none =>
            rw [ocsInsert_last_empty hmv' hl hGl]; exact h
          | some G =>
            rcases hvG : ecmp v G with _ | _ | _
            · -- eviction of G; the settled candidate stays settled
              rw [ocsInsert_last_evict hmv' hl hGl hvG]
              have hlne : l ≠ [] := by
                intro hnil; rw [hnil] at hGl; cases hGl
              have htk : l = l.dropLast ++ [G] := eq_dropLast_append_getLast hGl
              have hinitG : ∀ y ∈ l.dropLast, ecmp y G = .lt := by
                intro y hy
                have hp : SortedE (l.dropLast ++ [G]) := by rw [← htk]; exact hs
                exact (List.pairwise_append.mp hp).2.2 y hy G (List.mem_singleton.mpr rfl)
              have hminit : memE v l.dropLast = false := by
                rw [memE_eq_false_iff] at hmv' ⊢
                exact fun x hx => hmv' x (List.dropLast_sublist _ |>.subset hx)
              have hlev : (sortedInsert v l.dropLast).length = l.length := by
                rw [length_sortedInsert_of_not_memE hminit, List.length_dropLast]
                have : 0 < l.length := List.length_pos.mpr hlne
                omega
              have hlt_of_mem : ∀ G2 ∈ sortedInsert v l.dropLast, ecmp G2 G = .lt := by
                intro G2 hG2
                rcases mem_sortedInsert hG2 with rfl | hG2
                · exact hvG
                · exact hinitG G2 hG2
              rcases h with hmem | ⟨m2, hcap2, hlen2, hGf⟩
              · rcases memE_iff.mp hmem with ⟨x, hx, hbx⟩
                rw [htk] at hx
                rcases List.mem_append.mp hx with hx | hxG
                · exact Or.inl (memE_iff.mpr ⟨x, mem_sortedInsert_of_mem hx, hbx⟩)
                · -- the settled candidate was order-equal to the evicted G
                  have hbG : ecmp b G = .eq := by
                    rw [← List.mem_singleton.mp hxG]; exact hbx
                  refine Or.inr ⟨m, rfl, ?_, fun G2 hG2 => ?_⟩
                  · rw [hlev]; exact hl
                  · have hG2mem : G2 ∈ sortedInsert v l.dropLast := mem_of_getLast?E hG2
                    have hG2G : ecmp G2 G = .lt := hlt_of_mem G2 hG2mem
                    rcases ecmp_eq_iff.mp hbG with ⟨hca, hid⟩
                    have : ecmp G2 b = .lt := by
                      have hmid : ecmp G2 G = ecmp G2 b := by
                        calc ecmp G2 G = (ecmp G G2).swap := by rw [ecmp_swap]
                          _ = (ecmp b G2).swap := by rw [ecmp_congr_left hca.symm hid.symm]
                          _ = ecmp G2 b := by rw [ecmp_swap]
                      rw [← hmid]; exact hG2G
                    exact ecmp_gt_iff.mpr this
              · cases hcap2
                have hbG : ecmp b G = .gt := hGf G hGl
                refine Or.inr ⟨m, rfl, ?_, fun G2 hG2 => ?_⟩
                · rw [hlev]; exact hl
                · have hG2mem : G2 ∈ sortedInsert v l.dropLast := mem_of_getLast?E hG2
                  have hG2G : ecmp G2 G = .lt := hlt_of_mem G2 hG2mem
                  have hGb : ecmp G b = .lt := ecmp_gt_iff.mp hbG
                  exact ecmp_gt_iff.mpr (ecmp_trans hG2G hGb)
            · rw [ocsInsert_last_reject hmv' hl hGl (by simp [hvG])]; exact h
            · rw [ocsInsert_last_reject hmv' hl hGl (by simp [hvG])]; exact h

theorem ocsFold_sorted {cap : Capacity} :
    ∀ (bs : List Event) (l : List Event), SortedE l →
      SortedE (bs.foldl (fun l v => (ocsInsert cap l v).1) l) := by
  intro bs
  induction bs with
  | nil => intro l hs; exact hs
  | cons b bs ih =>
    intro l hs
    simp only [List.foldl_cons]
    exact ih _ (ocsInsert_sorted hs)

theorem handled_fold_mono {cap : Capacity} {b : Event} (hc : CapLast cap) :
    ∀ (bs : List Event) (l : List Event), SortedE l → Handled cap l b →
      Handled cap (bs.foldl (fun l v => (ocsInsert cap l v).1) l) b := by
  intro bs
  induction bs with
  | nil => intro l _ h; exact h
  | cons v bs ih =>
    intro l hs h
    simp only [List.foldl_cons]
    exact ih _ (ocsInsert_sorted hs) (handled_mono hs hc h)

theorem handled_fold {cap : Capacity} (hc : CapLast cap) :
    ∀ (bs : List Event) (l : List Event), SortedE l →
      ∀ b ∈ bs, Handled cap (bs.foldl (fun l v => (ocsInsert cap l v).1) l) b := by
  intro bs
  induction bs with
  | nil => intro l _ b hb; cases hb
  | cons v bs ih =>
    intro l hs b hb
    simp only [List.foldl_cons]
    rcases List.mem_cons.mp hb with rfl | hb
    · exact handled_fold_mono hc bs _ (ocsInsert_sorted hs) (handled_after hs hc)
    · exact ih _ (ocsInsert_sorted hs) b hb

theorem fold_noop {cap : Capacity} :
    ∀ (bs : List Event) (l : List Event), (∀ b ∈ bs, Handled cap l b) →
      bs.foldl (fun l v => (ocsInsert cap l v).1) l = l := by
  intro bs
  induction bs with
  | nil => intro l _; rfl
  | cons v bs ih =>
    intro l h
    simp only [List.foldl_cons]
    rw [Handled.noop (h v (List.mem_cons_self _ _))]
    exact ih l fun b hb => h b (List.mem_cons_of_mem _ hb)

/-- Re-extending a capped Last set by the same list is the identity. -/
theorem extend_fold_idem {cap : Capacity} {l : List Event} (bs : List Event)
    (hs : SortedE l) (hc : CapLast cap) :
    bs.foldl (fun l v => (ocsInsert cap l v).1)
        (bs.foldl (fun l v => (ocsInsert cap l v).1) l) =
      bs.foldl (fun l v => (ocsInsert cap l v).1) l :=
  fold_noop bs _ (handled_fold hc bs l hs)

theorem qcmp_eq_ecmp (a b : QueryEvent) :
    qcmp a b = ecmp a.into_event b.into_event := by
  cases a <;> cases b <;> rfl

theorem events_new_elems (filters : List Filter) :
    (Events.new filters).set.elems = [] := by
  unfold Events.new
  cases filtersLimit filters <;> rfl

theorem events_new_caplast (filters : List Filter) :
    CapLast (Events.new filters).set.cap := by
  unfold Events.new
  cases filtersLimit filters <;> trivial

theorem reachable_wf {E : Events} (h : EventsReachable E) : EventsWF E := by
  induction h with
  | new filters =>
    refine ⟨?_, events_new_caplast filters⟩
    rw [events_new_elems filters]
    exact List.Pairwise.nil
  | insert e _ ih =>
    exact ⟨ocsInsert_sorted ih.1, ih.2⟩
  | extend vs _ ih =>
    exact ⟨ocsFold_sorted vs _ ih.1, ih.2⟩
  | merge hA hB ihA ihB =>
    rename_i A B
    unfold Events.merge
    by_cases hcond : A.hash ≠ B.hash ∨ A.prev_not_match = true ∨ B.prev_not_match = true
    · simp only [hcond, if_true]
      exact ⟨ocsFold_sorted _ _ ihA.1, trivial⟩
    · simp only [hcond, if_false]
      exact ⟨ocsFold_sorted _ _ ihA.1, ihA.2⟩
  | from_query qs =>
    refine ⟨?_, trivial⟩
    show SortedE (qs.foldl (fun l q => (ocsInsert .unbounded l q.into_event).1) [])
    rw [← List.foldl_map QueryEvent.into_event
      (fun l v => (ocsInsert Capacity.unbounded l v).1) qs []]
    exact ocsFold_sorted _ _ List.Pairwise.nil

theorem dropLast_take_succ {α : Type} :
    ∀ {l : List α} {n : Nat}, n < l.length → (l.take (n + 1)).dropLast = l.take n := by
  intro l
  induction l with
  | nil => intro n h; simp at h
  | cons x xs ih =>
    intro n h
    cases n with
    | zero => simp
    | succ m =>
      have hm : m < xs.length := by simpa using h
      have hne : xs.take (m + 1) ≠ [] := by
        apply List.ne_nil_of_length_pos
        rw [List.length_take]
        omega
      rw [List.take_succ_cons, List.take_succ_cons,
        List.dropLast_cons_of_ne_nil hne, ih hm]

theorem merge_tainted {A B : Events}
    (h : A.hash ≠ B.hash ∨ A.prev_not_match = true ∨ B.prev_not_match = true) :
    (A.merge B).set.cap = .unbounded ∧ (A.merge B).hash = 0 ∧
      (A.merge B).prev_not_match = true := by
  unfold Events.merge
  rw [if_pos h]
  exact ⟨rfl, rfl, rfl⟩

theorem merge_untainted {A B : Events}
    (h : ¬ (A.hash ≠ B.hash ∨ A.prev_not_match = true ∨ B.prev_not_match = true)) :
    (A.merge B).set.elems =
        B.set.elems.foldl (fun l v => (ocsInsert A.set.cap l v).1) A.set.elems ∧
      (A.merge B).set.cap = A.set.cap ∧ (A.merge B).hash = A.hash ∧
      (A.merge B).prev_not_match = A.prev_not_match := by
  unfold Events.merge
  rw [if_neg h]
  exact ⟨rfl, rfl, rfl, rfl⟩

theorem events_fold_insert (vs : List Event) :
    ∀ (E : Events),
      (vs.foldl (fun E v => (E.insert v).1) E).set.elems =
          vs.foldl (fun l v => (ocsInsert E.set.cap l v).1) E.set.elems ∧
        (vs.foldl (fun E v => (E.insert v).1) E).set.cap = E.set.cap := by
  induction vs with
  | nil => intro E; exact ⟨rfl, rfl⟩
  | cons v vs ih =>
    intro E
    simp only [List.foldl_cons]
    exact ⟨(ih (E.insert v).1).1, (ih (E.insert v).1).2⟩

/-- C9: the claim asserts that every facade operation, and in particular
MemoryDatabase::begin_txn, returns a value or an explicit NotSupported
error and never panics.  The body of MemoryDatabase::begin_txn in
memory.rs is the todo placeholder macro: at the failing input (any memory
database, for example the default one) the call panics instead of
returning a handle or an error. -/
theorem c9_begin_txn_panics :
    (∀ d : MemoryDatabase, d.begin_txn = TxnOutcome.panics) ∧
      MemoryDatabase.new.begin_txn = TxnOutcome.panics :=
  ⟨fun _ => rfl, rfl⟩

/-- C7: the backend translation emits a constraint for an attribute iff
it is present and non-empty, widens kinds into the u64 domain preserving
every u16 value, emits one tag constraint per generic_tags entry, and
passes since, until and limit through unchanged; as a Lean function it is
total and deterministic. -/
theorem c7_filter_translation (f : Filter) :
    ((ndb_filter_conversion f).ids = none ↔ f.ids = none ∨ f.ids = some []) ∧
    (∀ l, f.ids = some l → l ≠ [] → (ndb_filter_conversion f).ids = some l) ∧
    ((ndb_filter_conversion f).authors = none ↔
      f.authors = none ∨ f.authors = some []) ∧
    (∀ l, f.authors = some l → l ≠ [] → (ndb_filter_conversion f).authors = some l) ∧
    ((ndb_filter_conversion f).kinds = none ↔ f.kinds = none ∨ f.kinds = some []) ∧
    (∀ ks, f.kinds = some ks → ks ≠ [] →
      (ndb_filter_conversion f).kinds = some (ks.map (fun k => k % (2 ^ 64))) ∧
        ∀ k ∈ ks, k < 65536 → k % (2 ^ 64) = k) ∧
    (ndb_filter_conversion f).tags = f.generic_tags ∧
    (ndb_filter_conversion f).since = f.since ∧
    (ndb_filter_conversion f).until_ts = f.until_ts ∧
    (ndb_filter_conversion f).limit = f.limit := by
  refine ⟨?_, ?_, ?_, ?_, ?_, ?_, ?_, rfl, rfl, rfl⟩
  · cases hids : f.ids with
    | none => simp [ndb_filter_conversion, hids]
    | some l =>
      cases l <;> simp [ndb_filter_conversion, hids, List.isEmpty_iff]
  · intro l hl hne
    cases l with
    | nil => exact absurd rfl hne
    | cons x xs => simp [ndb_filter_conversion, hl, List.isEmpty_iff]
  · cases hau : f.authors with
    | none => simp [ndb_filter_conversion, hau]
    | some l =>
      cases l <;> simp [ndb_filter_conversion, hau, List.isEmpty_iff]
  · intro l hl hne
    cases l with
    | nil => exact absurd rfl hne
    | cons x xs => simp [ndb_filter_conversion, hl, List.isEmpty_iff]
  · cases hks : f.kinds with
    | none => simp [ndb_filter_conversion, hks]
    | some l =>
      cases l <;> simp [ndb_filter_conversion, hks, List.isEmpty_iff]
  · intro ks hks hne
    constructor
    · cases ks with
      | nil => exact absurd rfl hne
      | cons x xs => simp [ndb_filter_conversion, hks, List.isEmpty_iff]
    · intro k _ hk
      exact Nat.mod_eq_of_lt (by omega)
  · cases hgt : f.generic_tags <;> simp [ndb_filter_conversion, hgt]

/-- C3: a merge with mismatched hashes or a tainted operand yields an
unbounded collection with hash zero and the taint flag set; the taint
persists through every further merge on either side; and a collection
collected from a query-event stream is born with hash zero and tainted,
so any merge involving it is unbounded. -/
theorem c3_taint_propagation (A B : Events)
    (h : A.hash ≠ B.hash ∨ A.prev_not_match = true ∨ B.prev_not_match = true) :
    ((A.merge B).set.cap = .unbounded ∧ (A.merge B).hash = 0 ∧
      (A.merge B).prev_not_match = true) ∧
    (∀ C : Events,
      ((A.merge B).merge C).set.cap = .unbounded ∧
        ((A.merge B).merge C).prev_not_match = true ∧
        (C.merge (A.merge B)).set.cap = .unbounded ∧
        (C.merge (A.merge B)).prev_not_match = true) ∧
    (∀ qs : List QueryEvent,
      (Events.from_query_events qs).hash = 0 ∧
        (Events.from_query_events qs).prev_not_match = true ∧
        ∀ C : Events,
          ((Events.from_query_events qs).merge C).set.cap = .unbounded ∧
            (C.merge (Events.from_query_events qs)).set.cap = .unbounded) := by
  have hM := merge_tainted h
  refine ⟨hM, fun C => ?_, fun qs => ⟨rfl, rfl, fun C => ?_⟩⟩
  · have h1 := merge_tainted (A := A.merge B) (B := C) (Or.inr (Or.inl hM.2.2))
    have h2 := merge_tainted (A := C) (B := A.merge B) (Or.inr (Or.inr hM.2.2))
    exact ⟨h1.1, h1.2.2, h2.1, h2.2.2⟩
  · have h1 := merge_tainted (A := Events.from_query_events qs) (B := C)
      (Or.inr (Or.inl rfl))
    have h2 := merge_tainted (A := C) (B := Events.from_query_events qs)
      (Or.inr (Or.inr rfl))
    exact ⟨h1.1, h2.1⟩

/-- Witness for C3 at a concrete tainted pair. -/
theorem c3_taint_propagation_witness :
    ((Events.new []).merge (Events.from_query_events [])).set.cap = .unbounded ∧
      ((Events.new []).merge (Events.from_query_events [])).hash = 0 ∧
      ((Events.new []).merge (Events.from_query_events [])).prev_not_match = true :=
  (c3_taint_propagation (Events.new []) (Events.from_query_events [])
    (Or.inr (Or.inr rfl))).1

/-- C4: merging two untainted collections with equal hashes keeps the
original capacity of the left operand, and re-merging the same right
operand changes nothing: the element sequences coincide. -/
theorem c4_merge_idempotent (A B : Events)
    (hA : EventsReachable A) (hB : EventsReachable B)
    (hh : A.hash = B.hash) (ha : A.prev_not_match = false)
    (hb : B.prev_not_match = false) :
    ((A.merge B).merge B).set.elems = (A.merge B).set.elems ∧
      (A.merge B).set.cap = A.set.cap := by
  have hcond : ¬ (A.hash ≠ B.hash ∨ A.prev_not_match = true ∨ B.prev_not_match = true) := by
    rw [hh, ha, hb]; simp
  have hM := merge_untainted hcond
  have hwfA := reachable_wf hA
  have hcond2 : ¬ ((A.merge B).hash ≠ B.hash ∨ (A.merge B).prev_not_match = true ∨
      B.prev_not_match = true) := by
    rw [hM.2.2.1, hM.2.2.2, hh, ha, hb]; simp
  have hM2 := merge_untainted hcond2
  refine ⟨?_, hM.2.1⟩
  rw [hM2.1, hM.2.1]
  conv_rhs => rw [hM.1]
  rw [hM.1]
  exact extend_fold_idem B.set.elems hwfA.1 hwfA.2

/-- Witness for C4 at a concrete pair built from the same filter list. -/
theorem c4_merge_idempotent_witness :
    ((((Events.new [fK1L2]).insert e100).1.merge ((Events.new [fK1L2]).insert e200).1).merge
          ((Events.new [fK1L2]).insert e200).1).set.elems =
        (((Events.new [fK1L2]).insert e100).1.merge
          ((Events.new [fK1L2]).insert e200).1).set.elems ∧
      (((Events.new [fK1L2]).insert e100).1.merge
          ((Events.new [fK1L2]).insert e200).1).set.cap =
        ((Events.new [fK1L2]).insert e100).1.set.cap :=
  c4_merge_idempotent _ _
    (.insert e100 (.new [fK1L2])) (.insert e200 (.new [fK1L2])) rfl rfl rfl

theorem into_event_created_at (a : QueryEvent) :
    a.into_event.created_at = a.created_at := by
  cases a <;> rfl

theorem into_event_id (a : QueryEvent) : a.into_event.id = a.id := by
  cases a <;> rfl

/-- C1: the total order on query events compares created_at descending
first and breaks ties by ascending byte order of the id, equality is by
id alone, and every reachable Events instance iterates in exactly that
order, with first() the head and last() the tail of the iteration. -/
theorem c1_total_order (a b : QueryEvent) (E : Events) (hE : EventsReachable E) :
    (qcmp a b = .lt ↔ specLt a.created_at a.id b.created_at b.id) ∧
      (qcmp a b = .eq ↔ a.created_at = b.created_at ∧ a.id = b.id) ∧
      (qeq a b = true ↔ a.id = b.id) ∧
      (E.to_vec.Pairwise fun x y => specLt x.created_at x.id y.created_at y.id) ∧
      E.first = E.to_vec.head? ∧ E.last = E.to_vec.getLast? := by
  refine ⟨?_, ?_, ?_, ?_, rfl, rfl⟩
  · rw [qcmp_eq_ecmp, ecmp_lt_iff, into_event_created_at a, into_event_created_at b,
      into_event_id a, into_event_id b]
    exact Iff.rfl
  · rw [qcmp_eq_ecmp, ecmp_eq_iff, into_event_created_at a, into_event_created_at b,
      into_event_id a, into_event_id b]
  · simp [qeq]
  · have hs := (reachable_wf hE).1
    exact hs.imp fun {x y} h => ecmp_lt_iff.mp h

/-- Witness for C1 at concrete views and a concrete reachable collection
(scenario A: three events, two sharing a timestamp). -/
theorem c1_total_order_witness :
    (qcmp (.owned e200) (.borrowed e100) = .lt ↔
        specLt (QueryEvent.owned e200).created_at (QueryEvent.owned e200).id
          (QueryEvent.borrowed e100).created_at (QueryEvent.borrowed e100).id) ∧
      (qcmp (.owned e200) (.borrowed e100) = .eq ↔
        (QueryEvent.owned e200).created_at = (QueryEvent.borrowed e100).created_at ∧
          (QueryEvent.owned e200).id = (QueryEvent.borrowed e100).id) ∧
      (qeq (.owned e200) (.borrowed e100) = true ↔
        (QueryEvent.owned e200).id = (QueryEvent.borrowed e100).id) ∧
      (((((Events.new []).insert (mkEvent 100 1)).1.insert
            (mkEvent 200 2)).1.insert (mkEvent 100 3)).1.to_vec.Pairwise
        fun x y => specLt x.created_at x.id y.created_at y.id) ∧
      ((((Events.new []).insert (mkEvent 100 1)).1.insert
            (mkEvent 200 2)).1.insert (mkEvent 100 3)).1.first =
        ((((Events.new []).insert (mkEvent 100 1)).1.insert
            (mkEvent 200 2)).1.insert (mkEvent 100 3)).1.to_vec.head? ∧
      ((((Events.new []).insert (mkEvent 100 1)).1.insert
            (mkEvent 200 2)).1.insert (mkEvent 100 3)).1.last =
        ((((Events.new []).insert (mkEvent 100 1)).1.insert
            (mkEvent 200 2)).1.insert (mkEvent 100 3)).1.to_vec.getLast? :=
  c1_total_order (.owned e200) (.borrowed e100) _
    (.insert (mkEvent 100 3) (.insert (mkEvent 200 2) (.insert (mkEvent 100 1) (.new []))))

/-- C2: Events::new adopts a bound iff the filter list is a single filter
carrying a limit; a bounded Last collection of max N built by any
insertion sequence holds exactly the N-element prefix of the fully sorted
deduplicated history (the N newest events) and never exceeds N; and the
concrete eviction scenario: under filter kind 1 limit 2, inserting events
at 100, 200, 50, 300 leaves length 2 with iteration 300 then 200, the
event at 50 rejected and the event at 100 evicted by the insert at 300. -/
theorem c2_capacity_bound :
    (∀ (f : Filter) (n : Nat), f.limit = some n →
      (Events.new [f]).set.cap = .bounded n .last) ∧
    (∀ f : Filter, f.limit = none → (Events.new [f]).set.cap = .unbounded) ∧
    (∀ fs : List Filter, fs.length ≠ 1 → (Events.new fs).set.cap = .unbounded) ∧
    (∀ (f : Filter) (N : Nat) (vs : List Event), f.limit = some N →
      (vs.foldl (fun E v => (E.insert v).1) (Events.new [f])).set.elems =
          (vs.foldl (fun l v => sortedInsert v l) []).take N ∧
        (vs.foldl (fun E v => (E.insert v).1) (Events.new [f])).len ≤ N) ∧
    ((Events.new [fK1L2]).set.cap = .bounded 2 .last ∧
      ((((Events.new [fK1L2]).insert e100).1.insert e200).1.insert e50).2 = false ∧
      (((((Events.new [fK1L2]).insert e100).1.insert e200).1.insert e50).1.insert
          e300).1.len = 2 ∧
      (((((Events.new [fK1L2]).insert e100).1.insert e200).1.insert e50).1.insert
          e300).1.to_vec = [e300, e200] ∧
      ((((Events.new [fK1L2]).insert e100).1.insert e200).1.set.insert
          e300).2.evicted = some e100) := by
  have hnewcap : ∀ (f : Filter) (n : Nat), f.limit = some n →
      (Events.new [f]).set.cap = .bounded n .last := by
    intro f n h
    have h1 : filtersLimit [f] = some n := by
      rw [show filtersLimit [f] = f.limit from rfl, h]
    unfold Events.new
    rw [h1]
    rfl
  refine ⟨hnewcap, ?_, ?_, ?_, by decide⟩
  · intro f h
    have h1 : filtersLimit [f] = none := by
      rw [show filtersLimit [f] = f.limit from rfl, h]
    unfold Events.new
    rw [h1]
    rfl
  · intro fs hlen
    have h1 : filtersLimit fs = none := by
      unfold filtersLimit
      match fs, hlen with
      | [], _ => rfl
      | [f], h => exact absurd rfl h
      | f :: g :: rest, _ => rfl
    unfold Events.new
    rw [h1]
    rfl
  · intro f N vs h
    have hcap := hnewcap f N h
    have hfold := events_fold_insert vs (Events.new [f])
    have helems :
        (vs.foldl (fun E v => (E.insert v).1) (Events.new [f])).set.elems =
          (vs.foldl (fun l v => sortedInsert v l) []).take N := by
      rw [hfold.1]
      simp only [hcap, events_new_elems]
      have hb := bounded_last_fold (N := N) vs [] List.Pairwise.nil
      simpa using hb
    refine ⟨helems, ?_⟩
    show (vs.foldl (fun E v => (E.insert v).1) (Events.new [f])).set.elems.length ≤ N
    rw [helems, List.length_take]
    omega

/-- Witness for C2 at the scenario inputs. -/
theorem c2_capacity_bound_witness :
    ([e100, e200, e50, e300].foldl (fun E v => (E.insert v).1)
          (Events.new [fK1L2])).set.elems =
        ([e100, e200, e50, e300].foldl (fun l v => sortedInsert v l) []).take 2 ∧
      ([e100, e200, e50, e300].foldl (fun E v => (E.insert v).1)
          (Events.new [fK1L2])).len ≤ 2 :=
  c2_capacity_bound.2.2.2.1 fK1L2 2 [e100, e200, e50, e300] rfl

theorem containsKey_iff {t : SeenTracker} {id : List Nat} :
    t.containsKey id = true ↔ ∃ p ∈ t.ids, p.1 = id := by
  simp [SeenTracker.containsKey, beq_iff_eq]

theorem containsKey_false_iff {t : SeenTracker} {id : List Nat} :
    t.containsKey id = false ↔ ∀ p ∈ t.ids, p.1 ≠ id := by
  simp [SeenTracker.containsKey, beq_iff_eq]

theorem check_capacity_capacity (t : SeenTracker) :
    t.check_capacity.capacity = t.capacity := by
  unfold SeenTracker.check_capacity
  split
  · split
    · split <;> rfl
    · rfl
  · rfl

theorem check_capacity_ids (t : SeenTracker) :
    (t.check_capacity.ids = t.ids ∧ t.check_capacity.queue = t.queue) ∨
      (∃ c victim, t.capacity = some c ∧ c ≤ t.queue.length ∧
        t.queue.getLast? = some victim ∧
        t.check_capacity.ids = t.ids.filter (fun p => ! (p.1 == victim)) ∧
        t.check_capacity.queue = t.queue.dropLast) := by
  unfold SeenTracker.check_capacity
  split
  · rename_i c hc
    split
    · rename_i hle
      split
      · rename_i victim hv
        exact Or.inr ⟨c, victim, hc, hle, hv, rfl, rfl⟩
      · exact Or.inl ⟨rfl, rfl⟩
    · exact Or.inl ⟨rfl, rfl⟩
  · exact Or.inl ⟨rfl, rfl⟩

theorem seen_fresh {t : SeenTracker} {id : List Nat}
    (h : t.containsKey id = false) (url : Option String) :
    t.seen id url =
      { t.check_capacity with
          ids := (id, addUrl [] url) :: t.check_capacity.ids,
          queue := id :: t.check_capacity.queue } := by
  unfold SeenTracker.seen
  rw [show t.ids.any (fun p => p.1 == id) = t.containsKey id from rfl, h]
  simp

theorem seen_present {t : SeenTracker} {id : List Nat}
    (h : t.containsKey id = true) (url : Option String) :
    (t.seen id url).queue = t.queue ∧ (t.seen id url).capacity = t.capacity ∧
      ∀ x, (t.seen id url).containsKey x = t.containsKey x := by
  unfold SeenTracker.seen
  rw [show t.ids.any (fun p => p.1 == id) = t.containsKey id from rfl, h,
    if_pos rfl]
  refine ⟨rfl, rfl, fun x => ?_⟩
  show (t.ids.map _).any _ = t.ids.any _
  rw [List.any_map]
  congr 1
  funext p
  by_cases hp : p.1 = id <;> simp [hp]

theorem seen_capacity (t : SeenTracker) (id : List Nat) (url : Option String) :
    (t.seen id url).capacity = t.capacity := by
  by_cases h : t.containsKey id = true
  · exact (seen_present h url).2.1
  · have h' : t.containsKey id = false := by revert h; cases t.containsKey id <;> simp
    rw [seen_fresh h' url]
    exact check_capacity_capacity t

theorem containsKey_seen_self (t : SeenTracker) (id : List Nat) (url : Option String) :
    (t.seen id url).containsKey id = true := by
  by_cases h : t.containsKey id = true
  · rw [(seen_present h url).2.2 id]; exact h
  · have h' : t.containsKey id = false := by revert h; cases t.containsKey id <;> simp
    rw [seen_fresh h' url]
    simp [SeenTracker.containsKey]

theorem containsKey_filter_ne {t : SeenTracker} {victim x : List Nat} :
    ((t.ids.filter (fun p => ! (p.1 == victim))).any (fun p => p.1 == x)) = true ↔
      t.containsKey x = true ∧ x ≠ victim := by
  simp only [List.any_eq_true, List.mem_filter, containsKey_iff]
  constructor
  · rintro ⟨p, ⟨hp, hpv⟩, hpx⟩
    have hx : p.1 = x := by simpa [beq_iff_eq] using hpx
    have hv : p.1 ≠ victim := by simpa [beq_iff_eq] using hpv
    exact ⟨⟨p, hp, hx⟩, fun hxe => hv (hx ▸ hxe)⟩
  · rintro ⟨⟨p, hp, hpx⟩, hxv⟩
    have h1 : (p.1 == x) = true := by simpa [beq_iff_eq] using hpx
    have h2 : (p.1 == victim) = false := by
      rw [beq_eq_false_iff_ne, hpx]
      exact hxv
    exact ⟨p, ⟨hp, by rw [h2]; rfl⟩, h1⟩

/-- Membership in dropLast for a duplicate-free list with known last
element. -/
theorem mem_dropLast_iff {α : Type} {l : List α} (hnd : l.Nodup) {v : α}
    (h : l.getLast? = some v) {x : α} : x ∈ l.dropLast ↔ x ∈ l ∧ x ≠ v := by
  have hdec := eq_dropLast_append_getLast h
  constructor
  · intro hx
    have hx2 : x ∈ l := List.mem_of_mem_dropLast hx
    have hdisj : l.dropLast.Disjoint [v] := by
      have := hdec ▸ hnd
      exact (List.nodup_append.mp this).2.2
    refine ⟨hx2, fun hxe => ?_⟩
    exact hdisj hx (by rw [hxe]; exact List.mem_singleton.mpr rfl)
  · rintro ⟨hx, hxv⟩
    rw [hdec] at hx
    rcases List.mem_append.mp hx with hx | hx
    · exact hx
    · exact absurd (List.mem_singleton.mp hx) hxv

theorem trackerWF_new (cap : Option Nat) : TrackerWF (SeenTracker.new cap) := by
  constructor
  · intro x
    simp [SeenTracker.containsKey, SeenTracker.new]
  · exact List.nodup_nil

theorem check_capacity_wf {t : SeenTracker} (h : TrackerWF t) :
    TrackerWF t.check_capacity := by
  rcases check_capacity_ids t with ⟨hids, hq⟩ | ⟨c, victim, hc, hle, hv, hids, hq⟩
  · constructor
    · intro x
      show (t.check_capacity.ids.any fun p => p.1 == x) = true ↔ _
      rw [hids, hq]
      exact h.1 x
    · rw [hq]; exact h.2
  · constructor
    · intro x
      show (t.check_capacity.ids.any fun p => p.1 == x) = true ↔ _
      rw [hids, hq, containsKey_filter_ne]
      rw [mem_dropLast_iff h.2 hv]
      rw [h.1 x]
    · rw [hq]
      exact h.2.sublist (List.dropLast_sublist _)

theorem seen_wf {t : SeenTracker} (h : TrackerWF t) (id : List Nat)
    (url : Option String) : TrackerWF (t.seen id url) := by
  by_cases hm : t.containsKey id = true
  · obtain ⟨hq, _, hk⟩ := seen_present hm url
    exact ⟨fun x => by rw [hk x, hq]; exact h.1 x, hq ▸ h.2⟩
  · have hm' : t.containsKey id = false := by revert hm; cases t.containsKey id <;> simp
    rw [seen_fresh hm' url]
    have h2 := check_capacity_wf h
    have hidq : id ∉ t.check_capacity.queue := by
      intro hin
      have : t.check_capacity.containsKey id = true := (h2.1 id).mpr hin
      rcases check_capacity_ids t with ⟨hids, _⟩ | ⟨c, victim, _, _, _, hids, _⟩
      · rw [show t.check_capacity.containsKey id = t.check_capacity.ids.any
          (fun p => p.1 == id) from rfl, hids] at this
        exact absurd this (by rw [show (t.ids.any fun p => p.1 == id) =
          t.containsKey id from rfl, hm']; simp)
      · rw [show t.check_capacity.containsKey id = t.check_capacity.ids.any
          (fun p => p.1 == id) from rfl, hids] at this
        rcases (containsKey_filter_ne (t := t)).mp this with ⟨hck, _⟩
        rw [hm'] at hck
        cases hck
    constructor
    · intro x
      show ((((id, addUrl [] url)) :: t.check_capacity.ids).any fun p => p.1 == x)
        = true ↔ x ∈ id :: t.check_capacity.queue
      simp only [List.any_cons, List.mem_cons, Bool.or_eq_true]
      constructor
      · rintro (hx | hx)
        · have hxe : id = x := by simpa [beq_iff_eq] using hx
          exact Or.inl hxe.symm
        · exact Or.inr ((h2.1 x).mp hx)
      · rintro (rfl | hx)
        · exact Or.inl (by simp)
        · exact Or.inr ((h2.1 x).mpr hx)
    · exact List.nodup_cons.mpr ⟨hidq, h2.2⟩

theorem check_capacity_evict {t : SeenTracker} {c : Nat} {victim : List Nat}
    (hc : t.capacity = some c) (hle : c ≤ t.queue.length)
    (hv : t.queue.getLast? = some victim) :
    t.check_capacity =
      { t with queue := t.queue.dropLast,
               ids := t.ids.filter (fun p => ! (p.1 == victim)) } := by
  unfold SeenTracker.check_capacity
  split
  · rename_i c2 hc2
    rw [hc] at hc2
    injection hc2 with he
    subst he
    split
    · split
      · rename_i v2 hv2
        rw [hv] at hv2
        injection hv2 with he2
        subst he2
        rfl
      · rename_i hv2
        rw [hv] at hv2
        simp at hv2
    · rename_i hle2
      exact absurd hle hle2
  · rename_i hc2
    rw [hc] at hc2
    simp at hc2

theorem check_capacity_noevict {t : SeenTracker} {c : Nat}
    (hc : t.capacity = some c) (hle : ¬ c ≤ t.queue.length) :
    t.check_capacity = t := by
  unfold SeenTracker.check_capacity
  split
  · rename_i c2 hc2
    rw [hc] at hc2
    injection hc2 with he
    subst he
    split
    · rename_i hle2
      exact absurd hle2 hle
    · rfl
  · rfl

theorem check_capacity_len {t : SeenTracker} {c : Nat} (hc : t.capacity = some c)
    (hlen : t.queue.length ≤ max c 1) :
    t.check_capacity.queue.length < c ∨ t.check_capacity.queue.length = 0 := by
  by_cases hle : c ≤ t.queue.length
  · rcases hq : t.queue.getLast? with _ | victim
    · have hnil : t.queue = [] := List.getLast?_eq_none_iff.mp hq
      right
      rcases check_capacity_ids t with ⟨_, h2⟩ | ⟨c2, v2, _, _, _, _, h2⟩ <;>
        rw [h2, hnil] <;> rfl
    · rw [check_capacity_evict hc hle hq]
      have hpos : 0 < t.queue.length := by
        rcases hqq : t.queue with _ | ⟨x, xs⟩
        · rw [hqq] at hq; simp at hq
        · simp
      show t.queue.dropLast.length < c ∨ t.queue.dropLast.length = 0
      rw [List.length_dropLast]
      have hm1 : 1 ≤ max c 1 := le_max_right c 1
      rcases max_choice c 1 with hmc | hmc <;> omega
  · rw [check_capacity_noevict hc hle]
    left
    omega

theorem seen_len_bound {t : SeenTracker} {c : Nat}
    (hc : t.capacity = some c) (hlen : t.queue.length ≤ max c 1)
    (id : List Nat) (url : Option String) :
    (t.seen id url).queue.length ≤ max c 1 := by
  by_cases hm : t.containsKey id = true
  · rw [(seen_present hm url).1]; exact hlen
  · have hm' : t.containsKey id = false := by revert hm; cases t.containsKey id <;> simp
    rw [seen_fresh hm' url]
    show (id :: t.check_capacity.queue).length ≤ max c 1
    have hm1 : 1 ≤ max c 1 := le_max_right c 1
    have hm2 : c ≤ max c 1 := le_max_left c 1
    rcases check_capacity_len hc hlen with hlt | h0
    · simp only [List.length_cons]; omega
    · simp only [List.length_cons, h0]; omega

theorem tracker_fold_wf (ops : List TrackerOp) :
    ∀ (t : SeenTracker), TrackerWF t →
      (∀ c, t.capacity = some c → t.queue.length ≤ max c 1) →
      TrackerWF (ops.foldl TrackerOp.apply t) ∧
        (∀ c, t.capacity = some c →
          (ops.foldl TrackerOp.apply t).queue.length ≤ max c 1) ∧
        (ops.foldl TrackerOp.apply t).capacity = t.capacity := by
  induction ops with
  | nil => intro t hwf hlen; exact ⟨hwf, fun c hc => hlen c hc, rfl⟩
  | cons op ops ih =>
    intro t hwf hlen
    simp only [List.foldl_cons, TrackerOp.apply]
    cases op with
    | seenOp id url =>
      have h1 := ih (t.seen id url) (seen_wf hwf id url)
        (fun c hc => seen_len_bound (by rw [seen_capacity] at hc; exact hc)
          (hlen c (by rw [seen_capacity] at hc; exact hc)) id url)
      refine ⟨h1.1, fun c hc => h1.2.1 c (by rw [seen_capacity]; exact hc), ?_⟩
      rw [h1.2.2, seen_capacity]
    | clearOp =>
      have hwfc : TrackerWF t.clear := by
        constructor
        · intro x
          simp [SeenTracker.containsKey, SeenTracker.clear]
        · exact List.nodup_nil
      have h1 := ih t.clear hwfc (fun c _ => by simp [SeenTracker.clear])
      exact ⟨h1.1, fun c hc => h1.2.1 c hc, h1.2.2⟩

/-- C6 counterexample: with configured capacity zero, one seen call
leaves a queue of length one, violating the claimed bound length ≤ 0 for
the configured capacity c = 0. -/
theorem c6_counterexample :
    ((SeenTracker.new (some 0)).seen [0] none).queue.length = 1 ∧
      ((SeenTracker.new (some 0)).seen [0] none).capacity = some 0 := by decide

/-- C6 amended: every operation sequence preserves that the map keys are
exactly the queue members; the queue length stays within the capacity for
every configured capacity c with 1 ≤ c, while for c = 0 the queue can
still hold one element (its length stays at most one). -/
theorem c6_tracker_invariants (cap : Option Nat) (ops : List TrackerOp) :
    (∀ x, (ops.foldl TrackerOp.apply (SeenTracker.new cap)).containsKey x = true ↔
        x ∈ (ops.foldl TrackerOp.apply (SeenTracker.new cap)).queue) ∧
      (∀ c, cap = some c → 1 ≤ c →
        (ops.foldl TrackerOp.apply (SeenTracker.new cap)).queue.length ≤ c) ∧
      (cap = some 0 →
        (ops.foldl TrackerOp.apply (SeenTracker.new cap)).queue.length ≤ 1) := by
  have h := tracker_fold_wf ops (SeenTracker.new cap) (trackerWF_new cap)
    (fun c _ => by simp [SeenTracker.new])
  refine ⟨h.1.1, fun c hc h1c => ?_, fun hc0 => ?_⟩
  · have h2 := h.2.1 c (by rw [show (SeenTracker.new cap).capacity = cap from rfl, hc])
    rw [max_eq_left h1c] at h2
    exact h2
  · have h2 := h.2.1 0 (by rw [show (SeenTracker.new cap).capacity = cap from rfl, hc0])
    have h3 : max 0 1 = 1 := max_eq_right (by omega)
    omega

/-- Witness for C6 at a concrete capacity and operation list. -/
theorem c6_tracker_invariants_witness :
    (∀ x, ([TrackerOp.seenOp [0] none, TrackerOp.seenOp [1] (some "wss"),
          TrackerOp.clearOp, TrackerOp.seenOp [2] none].foldl TrackerOp.apply
            (SeenTracker.new (some 2))).containsKey x = true ↔
        x ∈ ([TrackerOp.seenOp [0] none, TrackerOp.seenOp [1] (some "wss"),
          TrackerOp.clearOp, TrackerOp.seenOp [2] none].foldl TrackerOp.apply
            (SeenTracker.new (some 2))).queue) ∧
      ([TrackerOp.seenOp [0] none, TrackerOp.seenOp [1] (some "wss"),
          TrackerOp.clearOp, TrackerOp.seenOp [2] none].foldl TrackerOp.apply
            (SeenTracker.new (some 2))).queue.length ≤ 2 :=
  ⟨(c6_tracker_invariants (some 2) _).1,
    (c6_tracker_invariants (some 2) _).2.1 2 rfl (by omega)⟩

theorem tracker_inv_step {N : Nat} (hN : 1 ≤ N) {t : SeenTracker}
    {done : List (List Nat)} (hdnd : done.Nodup) (h : TrackerInv N t done)
    {id : List Nat} (hfresh : id ∉ done) (url : Option String) :
    TrackerInv N (t.seen id url) (done ++ [id]) := by
  obtain ⟨hcap, hq, hkeys⟩ := h
  have hqnd : t.queue.Nodup := by
    rw [hq]
    exact List.Nodup.sublist (List.take_sublist N done.reverse)
      (List.nodup_reverse.mpr hdnd)
  have hqsub : ∀ x ∈ t.queue, x ∈ done := by
    intro x hx
    rw [hq] at hx
    exact List.mem_reverse.mp (List.take_subset N done.reverse hx)
  have hfq : id ∉ t.queue := fun hin => hfresh (hqsub id hin)
  have hck : t.containsKey id = false := by
    cases hc : t.containsKey id
    · rfl
    · exact absurd ((hkeys id).mp hc) hfq
  have hwf : TrackerWF t := ⟨hkeys, hqnd⟩
  refine ⟨by rw [seen_capacity, hcap], ?_, fun x => ((seen_wf hwf id url).1 x)⟩
  rw [seen_fresh hck url]
  show id :: t.check_capacity.queue = (done ++ [id]).reverse.take N
  have hrev : (done ++ [id]).reverse = id :: done.reverse := by simp
  obtain ⟨M, rfl⟩ : ∃ M, N = M + 1 := ⟨N - 1, by omega⟩
  rw [hrev, List.take_succ_cons]
  by_cases hfull : M + 1 ≤ t.queue.length
  · -- the queue is at capacity: one eviction, then the push
    have hlq : t.queue.length = M + 1 := by
      rw [hq, List.length_take, List.length_reverse]
      rw [hq, List.length_take, List.length_reverse] at hfull
      omega
    have hdlen : M + 1 ≤ done.length := by
      rw [hq, List.length_take, List.length_reverse] at hlq
      omega
    have hne : t.queue ≠ [] := by
      intro hnil
      rw [hnil] at hlq
      simp at hlq
    obtain ⟨victim, hv⟩ : ∃ v, t.queue.getLast? = some v := by
      cases hvv : t.queue.getLast? with
      | none => exact absurd (List.getLast?_eq_none_iff.mp hvv) hne
      | some v => exact ⟨v, rfl⟩
    rw [check_capacity_evict hcap hfull hv]
    show id :: t.queue.dropLast = id :: done.reverse.take M
    congr 1
    rw [hq]
    exact dropLast_take_succ (by rw [List.length_reverse]; omega)
  · rw [check_capacity_noevict hcap hfull]
    show id :: t.queue = id :: done.reverse.take M
    congr 1
    rw [hq]
    have hlen : done.reverse.length < M + 1 := by
      rw [hq, List.length_take, List.length_reverse] at hfull
      rw [List.length_reverse]
      omega
    rw [List.take_of_length_le (by omega), List.take_of_length_le (by omega)]

theorem tracker_inv_fold {N : Nat} (hN : 1 ≤ N) :
    ∀ (ops : List (List Nat × Option String)) (t : SeenTracker)
      (done : List (List Nat)), TrackerInv N t done →
      (done ++ ops.map Prod.fst).Nodup →
      TrackerInv N (ops.foldl (fun t p => t.seen p.1 p.2) t)
        (done ++ ops.map Prod.fst) := by
  intro ops
  induction ops with
  | nil => intro t done h _; simpa using h
  | cons p ops ih =>
    intro t done h hnd
    rw [List.map_cons, List.append_cons] at hnd ⊢
    have hnd2 := hnd
    rw [List.nodup_append] at hnd2
    have hdnd : done.Nodup := (List.nodup_append.mp hnd2.1).1
    have hfresh : p.1 ∉ done := by
      intro hin
      have hdisj := (List.nodup_append.mp hnd2.1).2.2
      exact hdisj hin (List.mem_singleton.mpr rfl)
    simp only [List.foldl_cons]
    exact ih (t.seen p.1 p.2) (done ++ [p.1])
      (tracker_inv_step hN hdnd h hfresh p.2) hnd

/-- C5 counterexample: with capacity zero (k = 1 > N = 0, j = 1 ≤ k − N)
the claim requires contains(i₁) = false, but the tracker retains the id and
answers true. -/
theorem c5_counterexample :
    ((SeenTracker.new (some 0)).seen [0] none).containsKey [0] = true := by
  decide

/-- C5 amended: for every configured capacity N ≥ 1, after seeing k > N
distinct ids in order the tracker contains id i(j) (0-based index j) iff
j ≥ k − N, i.e. exactly the N newest ids survive in insertion order; and
seeing an already-present id again leaves the queue, hence its eviction
position, unchanged (FIFO, not LRU). -/
theorem c5_seen_fifo (N : Nat) (hN : 1 ≤ N)
    (ops : List (List Nat × Option String)) (hnd : (ops.map Prod.fst).Nodup)
    (hk : N < ops.length) :
    (∀ (j : Nat) (hj : j < (ops.map Prod.fst).length),
      (ops.foldl (fun t p => t.seen p.1 p.2) (SeenTracker.new (some N))).containsKey
          ((ops.map Prod.fst).get ⟨j, hj⟩) =
        decide (ops.length - N ≤ j)) ∧
    (∀ (t : SeenTracker) (id : List Nat) (url : Option String),
      t.containsKey id = true → (t.seen id url).queue = t.queue) := by
  have hbase : TrackerInv N (SeenTracker.new (some N)) [] := by
    refine ⟨rfl, by simp [SeenTracker.new], fun x => ?_⟩
    simp [SeenTracker.containsKey, SeenTracker.new]
  have hinv := tracker_inv_fold hN ops (SeenTracker.new (some N)) [] hbase
    (by simpa using hnd)
  rw [List.nil_append] at hinv
  obtain ⟨hcap, hq, hkeys⟩ := hinv
  constructor
  · intro j hj
    have hjlen : j < ops.length := by simpa using hj
    have hLlen : (ops.map Prod.fst).length = ops.length := by simp
    have hqd : (ops.foldl (fun t p => t.seen p.1 p.2)
        (SeenTracker.new (some N))).queue =
          ((ops.map Prod.fst).drop (ops.length - N)).reverse := by
      rw [hq, List.take_reverse, hLlen]
    by_cases hcase : ops.length - N ≤ j
    · rw [decide_eq_true hcase]
      apply (hkeys _).mpr
      rw [hqd, List.mem_reverse, List.get_eq_getElem]
      have hh : j - (ops.length - N) < ((ops.map Prod.fst).drop
          (ops.length - N)).length := by
        rw [List.length_drop, hLlen]
        omega
      rw [List.mem_iff_getElem]
      refine ⟨j - (ops.length - N), hh, ?_⟩
      rw [List.getElem_drop]
      have h1 : (List.map Prod.fst ops)[ops.length - N + (j - (ops.length - N))]? =
          (List.map Prod.fst ops)[j]? := by
        rw [show ops.length - N + (j - (ops.length - N)) = j from by omega]
      rw [List.getElem?_eq_getElem (by rw [hLlen]; omega),
        List.getElem?_eq_getElem (by rw [hLlen]; omega)] at h1
      exact Option.some_inj.mp h1
    · rw [decide_eq_false hcase]
      cases hres : (ops.foldl (fun t p => t.seen p.1 p.2)
          (SeenTracker.new (some N))).containsKey ((ops.map Prod.fst).get ⟨j, hj⟩) with
      | false => rfl
      | true =>
        exfalso
        have hmem := (hkeys _).mp hres
        rw [hqd, List.mem_reverse, List.mem_iff_getElem] at hmem
        obtain ⟨i, hi, heq⟩ := hmem
        rw [List.getElem_drop] at heq
        rw [List.get_eq_getElem] at heq
        have hval : ((⟨j, hj⟩ : Fin (ops.map Prod.fst).length)).val = j := rfl
        have hij : ops.length - N + i = j := by
          have h2 := (List.Nodup.getElem_inj_iff hnd).mp heq
          rw [hval] at h2
          exact h2
        rw [List.length_drop, hLlen] at hi
        omega
  · intro t id url hpresent
    exact (seen_present hpresent url).1

/-- Witness for C5 at capacity 1 and two distinct ids. -/
theorem c5_seen_fifo_witness :
    (∀ (j : Nat) (hj : j < (([([0], none), ([1], none)] :
        List (List Nat × Option String)).map Prod.fst).length),
      (([([0], none), ([1], none)] : List (List Nat × Option String)).foldl
          (fun t p => t.seen p.1 p.2) (SeenTracker.new (some 1))).containsKey
          ((([([0], none), ([1], none)] :
            List (List Nat × Option String)).map Prod.fst).get ⟨j, hj⟩) =
        decide (([([0], none), ([1], none)] :
          List (List Nat × Option String)).length - 1 ≤ j)) ∧
    (∀ (t : SeenTracker) (id : List Nat) (url : Option String),
      t.containsKey id = true → (t.seen id url).queue = t.queue) :=
  c5_seen_fifo 1 (by omega) [([0], none), ([1], none)] (by decide) (by decide)

theorem insertIdOnce_contains (id : List Nat) (ids : List (List Nat)) :
    (insertIdOnce id ids).contains id = true := by
  unfold insertIdOnce
  by_cases h : ids.contains id = true
  · rw [if_pos h]; exact h
  · rw [if_neg h]; simp

theorem index_event_known (h : DatabaseHelper) (e : Event) :
    (h.index_event e).1.deleted_ids.contains e.id = true ∨
      (h.index_event e).1.has_event e.id = true := by
  unfold DatabaseHelper.index_event
  split
  · left; exact insertIdOnce_contains e.id h.deleted_ids
  · split
    · rename_i hdel
      left; exact hdel
    · split
      · left; exact insertIdOnce_contains e.id h.deleted_ids
      · right
        unfold DatabaseHelper.has_event
        simp

theorem save_event_opts (d : MemoryDatabase) (e : Event) :
    (d.save_event e).1.opts = d.opts := by
  unfold MemoryDatabase.save_event
  split <;> rfl

theorem save_event_helper_true (d : MemoryDatabase) (e : Event)
    (h : d.opts.events = true) :
    (d.save_event e).1.helper = (d.helper.index_event e).1 := by
  unfold MemoryDatabase.save_event
  rw [if_pos h]

theorem save_event_seen_false (d : MemoryDatabase) (e : Event)
    (h : d.opts.events = false) :
    (d.save_event e).1.seen_event_ids = d.seen_event_ids.seen e.id none ∧
      (d.save_event e).2 = .rejected .other := by
  unfold MemoryDatabase.save_event
  rw [if_neg (by rw [h]; simp)]
  exact ⟨rfl, rfl⟩

theorem check_id_events_true {d : MemoryDatabase} (h : d.opts.events = true)
    (id : List Nat) :
    d.check_id id =
      (if d.helper.has_event_id_been_deleted id then .deleted
       else if d.helper.has_event id then .saved else .notExistent) := by
  unfold MemoryDatabase.check_id
  rw [if_pos h]

theorem check_id_events_false {d : MemoryDatabase} (h : d.opts.events = false)
    (id : List Nat) :
    d.check_id id =
      (if d.seen_event_ids.containsKey id then DatabaseEventStatus.saved
       else .notExistent) := by
  unfold MemoryDatabase.check_id
  rw [if_neg (by rw [h]; simp)]

/-- C8: on the no-persist configuration save_event records the id as seen
and reports Rejected(Other); on every configuration a check_id of the
same id immediately after save_event never observes NotExistent.  The
persisting branch goes through the indexing helper, whose source is not
among the provided files and is modelled from the spec. -/
theorem c8_save_then_check (d : MemoryDatabase) (e : Event) :
    (d.opts.events = false → (d.save_event e).2 = SaveEventStatus.rejected .other) ∧
      (d.save_event e).1.check_id e.id ≠ .notExistent := by
  constructor
  · intro hf
    exact (save_event_seen_false d e hf).2
  · cases hev : d.opts.events with
    | true =>
      rw [check_id_events_true (by rw [save_event_opts]; exact hev) e.id,
        save_event_helper_true d e hev]
      rcases index_event_known d.helper e with hdel | hhas
      · rw [if_pos (show (d.helper.index_event e).1.has_event_id_been_deleted e.id =
          true from hdel)]
        simp
      · by_cases hdel2 :
          (d.helper.index_event e).1.has_event_id_been_deleted e.id = true
        · rw [if_pos hdel2]; simp
        · rw [if_neg hdel2, if_pos (show (d.helper.index_event e).1.has_event e.id =
            true from hhas)]
          simp
    | false =>
      rw [check_id_events_false (by rw [save_event_opts]; exact hev) e.id,
        (save_event_seen_false d e hev).1,
        if_pos (containsKey_seen_self d.seen_event_ids e.id none)]
      simp

/-- Witness for C8 on the default memory database. -/
theorem c8_save_then_check_witness :
    (MemoryDatabase.new.save_event e100).2 = SaveEventStatus.rejected .other ∧
      (MemoryDatabase.new.save_event e100).1.check_id e100.id ≠ .notExistent :=
  ⟨(c8_save_then_check MemoryDatabase.new e100).1 rfl,
    (c8_save_then_check MemoryDatabase.new e100).2⟩

theorem get_none_iff (t : SeenTracker) (id : List Nat) :
    t.get id = none ↔ t.containsKey id = false := by
  unfold SeenTracker.get SeenTracker.containsKey
  simp [List.find?_eq_none, beq_iff_eq]

theorem get_some_of_contains {t : SeenTracker} {id : List Nat}
    (h : t.containsKey id = true) :
    ∃ p ∈ t.ids, p.1 = id ∧ t.get id = some p.2 := by
  obtain ⟨p, hp, hpid⟩ := containsKey_iff.mp h
  unfold SeenTracker.get
  cases hf : t.ids.find? (fun p => p.1 == id) with
  | none =>
    rw [List.find?_eq_none] at hf
    exact absurd (by simpa [beq_iff_eq] using hpid) (hf p hp)
  | some q =>
    have hq := List.find?_some hf
    have hqmem := List.mem_of_find?_eq_some hf
    exact ⟨q, hqmem, by simpa [beq_iff_eq] using hq, rfl⟩

theorem seen_preserves_nourl {t : SeenTracker} {id k : List Nat}
    {url : Option String}
    (hinv : ∀ p ∈ t.ids, p.1 = id → p.2 = [])
    (hok : url = none ∨ k ≠ id) :
    ∀ p ∈ (t.seen k url).ids, p.1 = id → p.2 = [] := by
  intro q hq hqid
  by_cases hm : t.containsKey k = true
  · unfold SeenTracker.seen at hq
    rw [show t.ids.any (fun p => p.1 == k) = t.containsKey k from rfl, hm,
      if_pos rfl] at hq
    obtain ⟨p, hp, hfp⟩ := List.mem_map.mp hq
    by_cases hpk : (p.1 == k) = true
    · have hq2 : q = (p.1, addUrl p.2 url) := by rw [← hfp, if_pos hpk]
      have hq1 : q.1 = p.1 := by rw [hq2]
      rcases hok with rfl | hne
      · rw [hq2]
        show addUrl p.2 none = []
        exact hinv p hp (by rw [← hq1]; exact hqid)
      · have hpk2 : p.1 = k := beq_iff_eq.mp hpk
        exact absurd (by rw [← hpk2, ← hq1]; exact hqid) hne
    · have hq2 : q = p := by rw [← hfp, if_neg hpk]
      rw [hq2] at hqid ⊢
      exact hinv p hp hqid
  · have hm' : t.containsKey k = false := by revert hm; cases t.containsKey k <;> simp
    rw [seen_fresh hm' url] at hq
    rcases List.mem_cons.mp hq with rfl | hq
    · rcases hok with rfl | hne
      · rfl
      · exact absurd hqid hne
    · have hsub : q ∈ t.ids := by
        rcases check_capacity_ids t with ⟨hids, _⟩ | ⟨c, victim, _, _, _, hids, _⟩
        · rw [hids] at hq; exact hq
        · rw [hids] at hq; exact (List.mem_filter.mp hq).1
      exact hinv q hsub hqid

theorem no_url_fold (id : List Nat) :
    ∀ (ops : List MDOp) (d : MemoryDatabase),
      (∀ url, MDOp.idSeen id url ∉ ops) → NoUrlFor d id →
      NoUrlFor (ops.foldl MDOp.apply d) id := by
  intro ops
  induction ops with
  | nil => intro d _ h; exact h
  | cons op ops ih =>
    intro d hno hinv
    simp only [List.foldl_cons]
    have hno2 : ∀ url, MDOp.idSeen id url ∉ ops := by
      intro url hin
      exact hno url (List.mem_cons_of_mem _ hin)
    refine ih (MDOp.apply d op) hno2 ?_
    cases op with
    | save e =>
      show NoUrlFor (d.save_event e).1 id
      unfold MemoryDatabase.save_event
      split
      · exact hinv
      · exact seen_preserves_nourl hinv (Or.inl rfl)
    | idSeen k url =>
      show NoUrlFor (d.event_id_seen k url) id
      have hne : k ≠ id := by
        intro hk
        exact hno url (by rw [hk]; exact List.mem_cons_self _ _)
      exact seen_preserves_nourl hinv (Or.inr hne)

/-- C10 counterexample: on a memory database with tracker capacity one,
the id of the first saved event was seen (its relay set was the empty
set) yet after a second save evicts it the lookup returns None, so None
is not reserved for never-seen ids. -/
theorem c10_counterexample :
    ((MemoryDatabase.with_opts ⟨false, some 1⟩).save_event e100).1.event_seen_on_relays
        e100.id = some [] ∧
      ((((MemoryDatabase.with_opts ⟨false, some 1⟩).save_event e100).1.save_event
          e200).1.event_seen_on_relays e100.id) = none := by
  decide

/-- C10 amended: event_seen_on_relays returns None exactly for ids absent
from the seen tracker (never seen, or seen and since evicted); for an id
still tracked that was never seen with a relay url, it returns Some of
the empty set. -/
theorem c10_seen_relays (opts : MemoryDatabaseOptions) (ops : List MDOp)
    (id : List Nat) :
    ((ops.foldl MDOp.apply (MemoryDatabase.with_opts opts)).event_seen_on_relays id =
        none ↔
      (ops.foldl MDOp.apply
          (MemoryDatabase.with_opts opts)).seen_event_ids.containsKey id = false) ∧
    ((∀ url, MDOp.idSeen id url ∉ ops) →
      (ops.foldl MDOp.apply
          (MemoryDatabase.with_opts opts)).seen_event_ids.containsKey id = true →
      (ops.foldl MDOp.apply (MemoryDatabase.with_opts opts)).event_seen_on_relays id =
        some []) := by
  constructor
  · exact get_none_iff _ id
  · intro hnu hck
    have hinv := no_url_fold id ops (MemoryDatabase.with_opts opts) hnu
      (by intro p hp _; simp [MemoryDatabase.with_opts, SeenTracker.new] at hp)
    obtain ⟨p, hp, hpid, hget⟩ := get_some_of_contains hck
    show (ops.foldl MDOp.apply (MemoryDatabase.with_opts opts)).seen_event_ids.get id =
      some []
    rw [hget, hinv p hp hpid]

/-- Witness for C10 at a concrete operation list that saves one event and
marks another id as seen on a relay. -/
theorem c10_seen_relays_witness :
    (([MDOp.save e100, MDOp.idSeen [9] "wss"] : List MDOp).foldl MDOp.apply
          (MemoryDatabase.with_opts ⟨false, some 2⟩)).event_seen_on_relays e100.id =
        some [] :=
  (c10_seen_relays ⟨false, some 2⟩ [MDOp.save e100, MDOp.idSeen [9] "wss"]
      e100.id).2
    (by
      intro url hin
      rcases List.mem_cons.mp hin with h | h
      · exact MDOp.noConfusion h
      · have h2 := List.mem_singleton.mp h
        injection h2 with h3 h4
        exact absurd h3 (by decide))
    (by decide)

/-- Witness for C7 at a filter carrying every attribute. -/
theorem c7_filter_translation_witness :
    (ndb_filter_conversion fW).ids = some [[5]] ∧
      ((ndb_filter_conversion fW).kinds = some ([1].map (fun k => k % (2 ^ 64))) ∧
        ∀ k ∈ [1], k < 65536 → k % (2 ^ 64) = k) ∧
      (ndb_filter_conversion fW).limit = some 3 :=
  ⟨(c7_filter_translation fW).2.1 [[5]] rfl (by decide),
    (c7_filter_translation fW).2.2.2.2.2.1 [1] rfl (by decide),
    (c7_filter_translation fW).2.2.2.2.2.2.2.2.2⟩

end Nostr


